import Mathlib

/-!
# Verification of the Inequality docking-tree editor core

A shallow embedding, in Lean 4, of the docking-tree data model of the
Inequality drag-and-drop expression editor (TypeScript sources under `src/`),
together with proofs about the properties its design document states.

Conventions used throughout:

* Pixel coordinates and lengths are modelled as rationals (`ℚ`).  The source
  uses JavaScript doubles; every quantity the claims below touch is obtained
  from the inputs by field operations, `min`/`max` and comparisons only, so
  the rational model tracks the source computation exactly.
* Euclidean distances are compared through their squares.  The source
  (`Inequality.findClosestDockingPoint`) compares `p5.Vector.dist` values,
  all non-negative, with `<` and `≤`; squaring is strictly monotone on
  non-negatives, so comparing squared distances decides exactly the same
  comparisons, and keeps the model inside `ℚ`.
* Font metrics (`p5.Font.textBounds`) are an external collaborator of the
  core; they are modelled as an arbitrary function from text and font size to
  a box, carried inside an environment record.
* The `DockingPoint` class itself is not among the given sources (only its
  callers are); where its behaviour matters it is modelled from the spec, and
  each such definition carries a doc comment saying so.
-/

namespace Inequality

/-! ## Geometry: vectors and rectangles (`Rect` from `Widget.ts`) -/

/-- A 2-d vector (`p5.Vector`, restricted to the plane as the source uses it). -/
structure Vec where
  x : ℚ
  y : ℚ
deriving Repr, DecidableEq

/-- Vector addition (`p5.Vector.add`). -/
def Vec.add (a b : Vec) : Vec := ⟨a.x + b.x, a.y + b.y⟩

/-- `Rect` from `Widget.ts`: an axis-aligned box. -/
structure RectQ where
  x : ℚ
  y : ℚ
  w : ℚ
  h : ℚ
deriving Repr, DecidableEq

/-! ## Nearest-docking-point search (`Inequality.findClosestDockingPoint`)

`_canvasDockingPoints` holds the currently empty docking points; each carries
its compatible-type list and its absolute position on the canvas.  The search
filters the candidates by non-empty intersection with
`_visibleDockingPointTypes`, scans them for the minimum Euclidean distance to
the test point, and accepts the minimum only within `1.5 × baseFontSize`.
-/

/-- A canvas docking-point candidate as the search sees it: the
`DockingPoint.type` compatibility list and `DockingPoint.absolutePosition`. -/
structure CanvasDP where
  dpTypes : List String
  absolutePosition : Vec
deriving Repr, DecidableEq

/-- Squared Euclidean distance.  The source computes
`testPoint.dist(dockingPoint.absolutePosition)` and compares those
non-negative distances; comparing squares decides the same orderings. -/
def distSq (a b : Vec) : ℚ :=
  (a.x - b.x) * (a.x - b.x) + (a.y - b.y) * (a.y - b.y)

/-- `_intersection(this._visibleDockingPointTypes, e.type).length > 0` from
the filter inside `findClosestDockingPoint`. -/
def typesCompatible (visibleTypes : List String) (dp : CanvasDP) : Bool :=
  dp.dpTypes.any (fun t => visibleTypes.contains t)

/-- The scan loop of `findClosestDockingPoint`: walk the available points
keeping the running minimum distance (squared) and its docking point.
`none` as accumulator is the initial `minDistance = Infinity` state, where
any candidate wins the `d < minDistance` test. -/
def closestScan (testPoint : Vec) :
    List CanvasDP → Option (ℚ × CanvasDP) → Option (ℚ × CanvasDP)
  | [], acc => acc
  | dp :: rest, acc =>
    let d := distSq testPoint dp.absolutePosition
    match acc with
    | none => closestScan testPoint rest (some (d, dp))
    | some (m, c) =>
      if d < m then closestScan testPoint rest (some (d, dp))
      else closestScan testPoint rest (some (m, c))

/-- `Inequality.findClosestDockingPoint`.  `baseFontSize` is
`this._baseFontSize`; the final guard is
`minDistance <= this._baseFontSize*1.5 ? candidateDockingPoint : null`,
compared here on squares (`(3/2 * baseFontSize)^2`), which is equivalent for
the non-negative `baseFontSize` the sketch uses. -/
def findClosestDockingPoint (visibleTypes : List String)
    (canvasDockingPoints : List CanvasDP) (baseFontSize : ℚ)
    (testPoint : Vec) : Option CanvasDP :=
  let availablePoints := canvasDockingPoints.filter
    (fun e => typesCompatible visibleTypes e)
  match closestScan testPoint availablePoints none with
  | none => none
  | some (m, c) =>
    if m ≤ (baseFontSize * (3/2)) * (baseFontSize * (3/2)) then some c else none

/-- `c` is the first-encountered minimum of the candidate list `l`: every
candidate strictly before it is strictly farther, every one after it at least
as far.  This is the tie-break the strict `d < minDistance` update realises. -/
def FirstMin (testPoint : Vec) (l : List CanvasDP) (c : CanvasDP) : Prop :=
  ∃ l₁ l₂, l = l₁ ++ c :: l₂ ∧
    (∀ x ∈ l₁,
      distSq testPoint c.absolutePosition < distSq testPoint x.absolutePosition) ∧
    (∀ x ∈ l₂,
      distSq testPoint c.absolutePosition ≤ distSq testPoint x.absolutePosition)

/-! ## Docking state: an arena model of widgets and their docking points

For the bidirectional-consistency invariant the geometric data is irrelevant;
what matters is the graph of `DockingPoint.child` references, each widget's
`parentWidget` back-reference and its `dockedTo` label.  Widgets are stored in
an arena keyed by their unique `id` (`Widget.id`, from the global counter
`wId`), so that the mutual references of the source become plain id-table
updates. -/

/-- One docking point of an arena widget: its `name`, its compatibility
`type` list, and the id of the attached `child` widget, if any. -/
structure ArenaDP where
  name : String
  dpTypes : List String
  child : Option Nat
deriving Repr, DecidableEq

/-- The docking-related state of one widget: `docksTo`, the `dockedTo` label,
the `parentWidget` back-reference (an id), and its docking points in
insertion order. -/
structure ArenaWidget where
  docksTo : List String
  dockedTo : String
  parentWidget : Option Nat
  dps : List ArenaDP
  wtype : String
deriving Repr, DecidableEq

/-- The forest as an association list from widget id to widget state. -/
abbrev Arena := List (Nat × ArenaWidget)

/-- Look a widget up by id (first entry wins, as any map would). -/
def lookupW : Arena → Nat → Option ArenaWidget
  | [], _ => none
  | p :: rest, i => if p.1 = i then some p.2 else lookupW rest i

/-- Update the widget with id `i` in place. -/
def updateW : Arena → Nat → (ArenaWidget → ArenaWidget) → Arena
  | [], _, _ => []
  | p :: rest, i, f =>
    (if p.1 = i then (p.1, f p.2) else p) :: updateW rest i f

/-- Clear a widget's attachment side: `parentWidget = null; dockedTo = ""`. -/
def clearAttachment (w : ArenaWidget) : ArenaWidget :=
  { w with parentWidget := none, dockedTo := "" }

/-- Set a widget's attachment side to a docking point of widget `owner` named
`nm`: `parentWidget = owner; dockedTo = nm`. -/
def setAttachment (owner : Nat) (nm : String) (w : ArenaWidget) : ArenaWidget :=
  { w with parentWidget := some owner, dockedTo := nm }

/-- Store `c` as the child of the docking point named `nm`. -/
def setDPChild (dps : List ArenaDP) (nm : String) (c : Option Nat) :
    List ArenaDP :=
  dps.map (fun dp => if dp.name = nm then { dp with child := c } else dp)

/-- The current child of the docking point of `owner` named `nm`. -/
def dpChildOf (a : Arena) (owner : Nat) (nm : String) : Option Nat :=
  match lookupW a owner with
  | none => none
  | some w =>
    match w.dps.find? (fun dp => dp.name == nm) with
    | none => none
    | some dp => dp.child

/-- Modelled from the spec: the `DockingPoint` class (in particular its
`child` property setter) is not among the given sources, only its callers
are.  Per the spec, attach ("dock") sets `D.child = W`, `W.parentWidget =
D.owner` and `W.dockedTo = D.name`, and detach ("undock") is the symmetric
clear of both sides; the bidirectional invariant is to be maintained by every
mutation, never one side only.  Accordingly, assigning to `child` first
clears the attachment side of the docking point's previous child, if any,
then stores the new child and, when it is non-null, sets its attachment side
(this clearing of the previous child is also what makes the "DO NOT SWAP
THESE TWO LINES" comment in `Fraction._shakeIt` meaningful). -/
def dockingPointSetChild (a : Arena) (owner : Nat) (nm : String)
    (c : Option Nat) : Arena :=
  let a1 :=
    match dpChildOf a owner nm with
    | some o => updateW a o clearAttachment
    | none => a
  let a2 := updateW a1 owner (fun w => { w with dps := setDPChild w.dps nm c })
  match c with
  | some cw => updateW a2 cw (setAttachment owner nm)
  | none => a2

/-- The dock performed at pointer-up (`Inequality.touchEnded`):
`this._activeDockingPoint.child = this._movingSymbol;` followed by the
explicit `this._activeDockingPoint.child.dockedTo =
this._activeDockingPoint.name;`. -/
def touchEndedDock (a : Arena) (owner : Nat) (nm : String) (moving : Nat) :
    Arena :=
  let a1 := dockingPointSetChild a owner nm (some moving)
  updateW a1 moving (fun w => { w with dockedTo := nm })

/-- The dock performed when a palette symbol is committed
(`Inequality.commitPotentialSymbol`): `this._activeDockingPoint.child =
this._potentialSymbol;`. -/
def commitPotentialSymbolDock (a : Arena) (owner : Nat) (nm : String)
    (potential : Nat) : Arena :=
  dockingPointSetChild a owner nm (some potential)

/-- The attach performed per child during deserialization
(`Inequality._parseSubtreeObject`): `w.dockingPoints[key].child =
this._parseSubtreeObject(n);`. -/
def parseAttachChild (a : Arena) (parent : Nat) (key : String) (child : Nat) :
    Arena :=
  dockingPointSetChild a parent key (some child)

/-- `Widget.removeFromParent`.  The source sets `this.dockedTo = ""`, then
walks the parent's docking points; at the one whose `child == this` it
assigns `dockingPoint.child = null` (the setter clears both sides) and
`this.parentWidget = null`.  Because the loop body re-reads
`this.parentWidget?.dockingPoints[k]` and the first clearing nulls
`this.parentWidget`, only the first matching docking point is cleared, which
the `find?` below reproduces. -/
def removeFromParent (a : Arena) (i : Nat) : Arena :=
  match lookupW a i with
  | none => a
  | some w =>
    match w.parentWidget with
    | none => a
    | some pid =>
      let a1 := updateW a i (fun v => { v with dockedTo := "" })
      match lookupW a1 pid with
      | none => a1
      | some pw =>
        match pw.dps.find? (fun dp => dp.child == some i) with
        | none => a1
        | some dpf =>
          let a2 := dockingPointSetChild a1 pid dpf.name none
          updateW a2 i (fun v => { v with parentWidget := none })

/-- No two arena entries share an id (ids come from the monotone counter
`wId`). -/
def nodupKeysB : List Nat → Bool
  | [] => true
  | x :: xs => !(xs.any (fun y => y == x)) && nodupKeysB xs

/-- Bool version of the id uniqueness of the arena. -/
def keysNodup (a : Arena) : Bool :=
  nodupKeysB (a.map Prod.fst)

/-- No two docking points of one widget share a name (they are the keys of
the `dockingPoints` object, so this holds by construction in the source). -/
def namesNodupB : List ArenaDP → Bool
  | [] => true
  | dp :: rest => !(rest.any (fun e => e.name == dp.name)) && namesNodupB rest

/-- The bidirectional docking invariant, executable form: every docking point
whose `child` is non-null has that child present in the arena with
`parentWidget` pointing back at the docking point's owner and `dockedTo`
equal to the docking point's name. -/
def dockInvariantB (a : Arena) : Bool :=
  a.all (fun p => p.2.dps.all (fun dp =>
    match dp.child with
    | none => true
    | some c =>
      match lookupW a c with
      | none => false
      | some wc => wc.parentWidget == some p.1 && wc.dockedTo == dp.name))

/-- The bidirectional docking invariant, stated through lookups. -/
def DockInvariant (a : Arena) : Prop :=
  ∀ i w, lookupW a i = some w → ∀ dp ∈ w.dps, ∀ c, dp.child = some c →
    ∃ wc, lookupW a c = some wc ∧ wc.parentWidget = some i ∧
      wc.dockedTo = dp.name

/-! ## Serialization and deserialization (`WidgetSpec` trees)

`Inequality._parseSubtreeObject` dispatches on the `type` tag to a widget
constructor fed from the node's property bag, then attaches each named child
to the correspondingly-named docking point; `Widget.subtreeObject` walks the
tree back out, emitting the type tag, the per-type property bag
(`properties()`), and the occupied docking points.  The model keeps, per
widget, exactly what these two operations exchange: the constructor-stored
fields and the docking-point table. -/

/-- A property value as it sits in a `WidgetSpec` bag once it has crossed
the JavaScript boundary: a string, a boolean, or `undefined` (the result of
reading a key the bag does not have). -/
inductive PVal where
  | str (v : String)
  | bool (v : Bool)
  | undefV
deriving Repr, DecidableEq, BEq

/-- A property bag: a JS object, i.e. ordered key–value pairs with distinct
keys. -/
abbrev PBag := List (String × PVal)

/-- `bag.k`: reading a key off a property bag (`undefined` when absent). -/
def pbagGet (b : PBag) (k : String) : PVal :=
  match b.find? (fun e => e.1 == k) with
  | some e => e.2
  | none => .undefV

/-- The constructor-stored fields of each widget type, one constructor per
`case` of the `_parseSubtreeObject` switch.  Field values are kept raw, as
the source constructors store what they are passed. -/
inductive WFields where
  | symbolF (letter modifier : PVal)
  | binaryOperationF (operation : PVal)
  | fractionF
  | bracketsF (btype : PVal)
  | absoluteValueF
  | radixF
  | numF (significand : PVal)
  | fnF (name custom allowSubscript innerSuperscript : PVal)
  | differentialF (letter : PVal)
  | derivativeF
  | relationF (relation : PVal)
  | stateSymbolF (state : PVal)
  | chemicalElementF (element : PVal)
  | particleF (particle ptype : PVal)
  | logicBinaryOperationF (operation : PVal)
  | logicLiteralF (value : PVal)
  | logicNotF
deriving Repr, DecidableEq

/-- The `switch (type)` of the `Particle` constructor: the stored `particle`
character is derived from the `type` for the known particle kinds and falls
back to the passed `particle` otherwise. -/
def particleDisplay (particle ptype : PVal) : PVal :=
  if ptype = .str "alpha" then .str "α"
  else if ptype = .str "beta" then .str "β"
  else if ptype = .str "gamma" then .str "γ"
  else if ptype = .str "neutrino" then .str "ν"
  else if ptype = .str "antineutrino" then .str "ν̅"
  else if ptype = .str "p" ∨ ptype = .str "proton" then .str "p"
  else if ptype = .str "n" ∨ ptype = .str "neutron" then .str "n"
  else if ptype = .str "e" ∨ ptype = .str "electron" then .str "e"
  else particle

/-- The known type tags, in the order of the `_parseSubtreeObject` switch. -/
def knownTypeTags : List String :=
  ["Symbol", "BinaryOperation", "Fraction", "Brackets", "AbsoluteValue",
   "Radix", "Num", "Fn", "Differential", "Derivative", "Relation",
   "StateSymbol", "ChemicalElement", "Particle", "LogicBinaryOperation",
   "LogicLiteral", "LogicNot"]

/-- The switch of `Inequality._parseSubtreeObject` combined with each
constructor's property reads: which fields the widget of tag `wtype` stores,
given the node's property bag; `none` for an unknown tag (the `default`
branch, which creates nothing).  `Symbol`'s `modifier` parameter defaults to
`""` when the bag has none; `Num` reads `exponent` but its constructor
ignores it; `Particle` derives its stored character from the `type`
property. -/
def construct (wtype : String) (props : PBag) : Option WFields :=
  match wtype with
  | "Symbol" =>
    some (.symbolF (pbagGet props "letter")
      (match pbagGet props "modifier" with
        | .undefV => .str ""
        | v => v))
  | "BinaryOperation" => some (.binaryOperationF (pbagGet props "operation"))
  | "Fraction" => some .fractionF
  | "Brackets" => some (.bracketsF (pbagGet props "type"))
  | "AbsoluteValue" => some .absoluteValueF
  | "Radix" => some .radixF
  | "Num" => some (.numF (pbagGet props "significand"))
  | "Fn" => some (.fnF (pbagGet props "name") (pbagGet props "custom")
      (pbagGet props "allowSubscript") (pbagGet props "innerSuperscript"))
  | "Differential" => some (.differentialF (pbagGet props "letter"))
  | "Derivative" => some .derivativeF
  | "Relation" => some (.relationF (pbagGet props "relation"))
  | "StateSymbol" => some (.stateSymbolF (pbagGet props "state"))
  | "ChemicalElement" => some (.chemicalElementF (pbagGet props "element"))
  | "Particle" => some (.particleF
      (particleDisplay (pbagGet props "particle") (pbagGet props "type"))
      (pbagGet props "type"))
  | "LogicBinaryOperation" =>
    some (.logicBinaryOperationF (pbagGet props "operation"))
  | "LogicLiteral" => some (.logicLiteralF (pbagGet props "value"))
  | "LogicNot" => some .logicNotF
  | _ => none

/-- Each concrete class's `typeAsString` getter. -/
def typeAsStringOf : WFields → String
  | .symbolF _ _ => "Symbol"
  | .binaryOperationF _ => "BinaryOperation"
  | .fractionF => "Fraction"
  | .bracketsF _ => "Brackets"
  | .absoluteValueF => "AbsoluteValue"
  | .radixF => "Radix"
  | .numF _ => "Num"
  | .fnF _ _ _ _ => "Fn"
  | .differentialF _ => "Differential"
  | .derivativeF => "Derivative"
  | .relationF _ => "Relation"
  | .stateSymbolF _ => "StateSymbol"
  | .chemicalElementF _ => "ChemicalElement"
  | .particleF _ _ => "Particle"
  | .logicBinaryOperationF _ => "LogicBinaryOperation"
  | .logicLiteralF _ => "LogicLiteral"
  | .logicNotF => "LogicNot"

/-- JavaScript truthiness, for the `Fn` docking-point flags. -/
def truthy : PVal → Bool
  | .str v => v ≠ ""
  | .bool v => v
  | .undefV => false

/-- Each class's `generateDockingPoints`, reduced to the docking-point names
it creates, in creation order.  `Symbol` and `Brackets` omit the script
points in `logic` mode; `ChemicalElement` and `Particle` add the nucleon
points in `nuclear` mode; `Fn` re-generates its table after its flags are
set, so its final names depend on `allowSubscript`/`innerSuperscript`;
`Num`'s names are the same in every mode. -/
def dockingPointNamesOf (f : WFields) (editorMode : String) : List String :=
  match f with
  | .symbolF _ _ =>
    ["right"] ++ (if editorMode ≠ "logic" then ["superscript", "subscript"]
      else [])
  | .binaryOperationF _ => ["right"]
  | .fractionF => ["right", "numerator", "denominator"]
  | .bracketsF _ =>
    ["argument", "right"] ++
      (if editorMode ≠ "logic" then ["superscript", "subscript"] else [])
  | .absoluteValueF => ["argument", "right", "superscript"]
  | .radixF => ["argument", "right", "superscript"]
  | .numF _ => ["right", "superscript"]
  | .fnF _ _ aSub iSup =>
    ["argument", "right"] ++ (if truthy aSub then ["subscript"] else []) ++
      (if truthy iSup then ["superscript"] else [])
  | .differentialF _ => ["argument", "order", "right"]
  | .derivativeF => ["right", "numerator", "denominator"]
  | .relationF _ => ["right"]
  | .stateSymbolF _ => ["right"]
  | .chemicalElementF _ =>
    ["right", "superscript", "subscript"] ++
      (if editorMode = "nuclear" then ["mass_number", "proton_number"]
        else [])
  | .particleF _ _ =>
    ["right", "superscript", "subscript"] ++
      (if editorMode = "nuclear" then ["mass_number", "proton_number"]
        else [])
  | .logicBinaryOperationF _ => ["right"]
  | .logicLiteralF _ => ["right"]
  | .logicNotF => ["argument", "right"]

/-- Each class's `properties()`: the per-type property bag `subtreeObject`
emits, or `none` when `properties()` returns `null` (then `subtreeObject`
omits the key; an empty object `{}` is truthy and is emitted). -/
def propertiesOf : WFields → Option PBag
  | .symbolF l m => some [("letter", l), ("modifier", m)]
  | .binaryOperationF op => some [("operation", op)]
  | .fractionF => none
  | .bracketsF t => some [("type", t)]
  | .absoluteValueF => some []
  | .radixF => none
  | .numF s => some [("significand", s)]
  | .fnF n c a i => some [("name", n), ("custom", c),
      ("innerSuperscript", i), ("allowSubscript", a)]
  | .differentialF l => some [("letter", l)]
  | .derivativeF => none
  | .relationF r => some [("relation", r)]
  | .stateSymbolF st => some [("state", st)]
  | .chemicalElementF e => some [("element", e)]
  | .particleF p t => some [("particle", p), ("type", t)]
  | .logicBinaryOperationF op => some [("operation", op)]
  | .logicLiteralF v => some [("value", v)]
  | .logicNotF => some []

mutual
/-- The `WidgetSpec` wire format: type tag, optional property bag, and the
named children (position and expression caches are not part of the tree
equivalence and are omitted). -/
inductive WSpec where
  | mk (wtype : String) (props : Option PBag) (children : WChildren)
deriving Repr, DecidableEq
/-- The `children` object of a `WidgetSpec`: key–subtree pairs in insertion
order. -/
inductive WChildren where
  | nil
  | cons (key : String) (child : WSpec) (rest : WChildren)
deriving Repr, DecidableEq
end

mutual
/-- A deserialized widget: its constructor-stored fields and its docking
points. -/
inductive WModel where
  | mk (fields : WFields) (dps : MDPs)
deriving Repr, DecidableEq
/-- A widget's docking-point table: each point is empty or holds a child. -/
inductive MDPs where
  | nil
  | emptyDP (name : String) (rest : MDPs)
  | filledDP (name : String) (child : WModel) (rest : MDPs)
deriving Repr, DecidableEq
end

/-- The docking points a freshly constructed widget has: one empty point per
generated name. -/
def mkEmptyDPs : List String → MDPs
  | [] => .nil
  | n :: rest => .emptyDP n (mkEmptyDPs rest)

/-- `w.dockingPoints[key].child = c`: store `c` (possibly null/undefined) at
the docking point named `key`.  Docking-point names are distinct, so the
name-directed replacement touches the one point the source assignment
touches. -/
def attachChild : MDPs → String → Option WModel → MDPs
  | .nil, _, _ => .nil
  | .emptyDP n rest, key, c =>
    if n = key then
      match c with
      | some w => .filledDP n w (attachChild rest key c)
      | none => .emptyDP n (attachChild rest key c)
    else .emptyDP n (attachChild rest key c)
  | .filledDP n w rest, key, c =>
    if n = key then
      match c with
      | some w' => .filledDP n w' (attachChild rest key c)
      | none => .emptyDP n (attachChild rest key c)
    else .filledDP n w (attachChild rest key c)

mutual
/-- `Inequality._parseSubtreeObject` (with `parseChildren = true`): dispatch
on the type tag, build the widget with its empty docking points, then attach
each named child recursively.  Unknown tags produce no widget. -/
def parseSubtreeObjectW (m : String) : WSpec → Option WModel
  | .mk wtype props children =>
    match construct wtype (props.getD []) with
    | none => none
    | some f =>
      some (.mk f (parseChildrenAttach m children
        (mkEmptyDPs (dockingPointNamesOf f m))))
/-- The `for (const key in node.children)` loop of `_parseSubtreeObject`. -/
def parseChildrenAttach (m : String) : WChildren → MDPs → MDPs
  | .nil, dps => dps
  | .cons key child rest, dps =>
    parseChildrenAttach m rest
      (attachChild dps key (parseSubtreeObjectW m child))
end

mutual
/-- `Widget.subtreeObject` (the tree part: type tag, `properties()` bag, and
the occupied docking points; root position and the expression cache are
outside the tree equivalence). -/
def subtreeObjectW : WModel → WSpec
  | .mk f dps => .mk (typeAsStringOf f) (propertiesOf f) (subtreeChildren dps)
/-- The `_each(this.dockingPoints, ...)` walk of `subtreeObject`: one entry
per docking point with a non-null child, in table order. -/
def subtreeChildren : MDPs → WChildren
  | .nil => .nil
  | .emptyDP _ rest => subtreeChildren rest
  | .filledDP n w rest => .cons n (subtreeObjectW w) (subtreeChildren rest)
end

/-- The keys of a `children` object, in order. -/
def childKeys : WChildren → List String
  | .nil => []
  | .cons k _ rest => k :: childKeys rest

/-- Find the subtree at `key` in a `children` object. -/
def findChildSpec : WChildren → String → Option WSpec
  | .nil, _ => none
  | .cons k c rest, key => if k = key then some c else findChildSpec rest key

/-- Every key of `c1` also keys `c2`. -/
def keysSubset (c1 c2 : WChildren) : Bool :=
  (childKeys c1).all (fun k => (childKeys c2).contains k)

/-- The keys of a `children` object are distinct (JS object keys are). -/
def keysDistinct : WChildren → Bool
  | .nil => true
  | .cons k _ rest => !((childKeys rest).contains k) && keysDistinct rest

/-- Every key of `c` is one of `names`. -/
def keysAmong (c : WChildren) (names : List String) : Bool :=
  (childKeys c).all (fun k => names.contains k)

mutual
/-- Tree equivalence as the round-trip property states it: the same type tag
at every node, the same per-type property bag, and the same set of occupied
docking-point names, with equivalent subtrees at each shared key. -/
def equivSpec : WSpec → WSpec → Bool
  | .mk t1 p1 c1, .mk t2 p2 c2 =>
    (decide (t1 = t2)) && (decide (p1 = p2)) && keysSubset c1 c2 &&
      keysSubset c2 c1 && equivChildren c1 c2
/-- Each child of the first object matches the same-named child of the
second. -/
def equivChildren : WChildren → WChildren → Bool
  | .nil, _ => true
  | .cons k cs rest, t =>
    (match findChildSpec t k with
      | some ct => equivSpec cs ct
      | none => false) && equivChildren rest t
end

mutual
/-- A valid `WidgetSpec` input: a known type tag, a property bag that is
exactly the canonical bag its widget serializes back, and children keyed by
distinct docking-point names the constructed widget possesses, recursively
valid. -/
def validSpec (m : String) : WSpec → Bool
  | .mk wtype props children =>
    match construct wtype (props.getD []) with
    | none => false
    | some f =>
      (decide (props = propertiesOf f)) && keysDistinct children &&
        keysAmong children (dockingPointNamesOf f m) &&
        validChildren m children
/-- All children valid. -/
def validChildren (m : String) : WChildren → Bool
  | .nil => true
  | .cons _ c rest => validSpec m c && validChildren m rest
end

mutual
/-- Size of a spec tree, for the strong induction of the round-trip proof. -/
def specSize : WSpec → Nat
  | .mk _ _ c => childrenSize c + 1
/-- Size of a children object. -/
def childrenSize : WChildren → Nat
  | .nil => 0
  | .cons _ c rest => specSize c + childrenSize rest + 1
end

/-- `Inequality.parseSubtreeObject` at the forest level (with
`clearExistingSymbols = false`): when the helper produces a widget it is
appended to `_symbols`; otherwise the forest is left untouched. -/
def parseSubtreeObjectForest (m : String) (symbols : List WModel)
    (root : WSpec) : List WModel :=
  match parseSubtreeObjectW m root with
  | some w => symbols ++ [w]
  | none => symbols

/-- The docking-point table flattened to (name, occupant) pairs. -/
def dpsToList : MDPs → List (String × Option WModel)
  | .nil => []
  | .emptyDP n rest => (n, none) :: dpsToList rest
  | .filledDP n w rest => (n, some w) :: dpsToList rest

/-- A `children` object flattened to (key, subtree) pairs. -/
def childrenToList : WChildren → List (String × WSpec)
  | .nil => []
  | .cons k c rest => (k, c) :: childrenToList rest

/-- The occupant the parse loop leaves at docking point `nm`: the parse of
the same-named child when the spec has one, empty otherwise. -/
def occOf (m : String) (children : WChildren) (nm : String) : Option WModel :=
  match findChildSpec children nm with
  | some ck => parseSubtreeObjectW m ck
  | none => none

mutual
/-- Validity exactly as the round-trip claim words it, for comparison with
`validSpec`: a known type tag, and children keyed by docking-point names the
constructed widget possesses, recursively — nothing about the property
bag. -/
def validSpecW (m : String) : WSpec → Bool
  | .mk wtype props children =>
    match construct wtype (props.getD []) with
    | none => false
    | some f =>
      keysDistinct children && keysAmong children (dockingPointNamesOf f m) &&
        validChildrenW m children
/-- All children valid in the claim's weaker sense. -/
def validChildrenW (m : String) : WChildren → Bool
  | .nil => true
  | .cons _ c rest => validSpecW m c && validChildrenW m rest
end

/-- A `Num` spec carrying the legacy `exponent` property next to
`significand`; the `Num` constructor stores only the significand. -/
def numExponentSpec : WSpec :=
  .mk "Num" (some [("significand", .str "2"), ("exponent", .str "3")]) .nil

/-- A small concrete tree: the literal `2` with the letter `x` docked at its
`right` point. -/
def twoXSpec : WSpec :=
  .mk "Num" (some [("significand", .str "2")])
    (.cons "right"
      (.mk "Symbol" (some [("letter", .str "x"), ("modifier", .str "")]) .nil)
      .nil)

/-- `String.prototype.trim`, as applied to the four exported renders: strip
leading and trailing whitespace. -/
def jsTrim (s : String) : String :=
  ⟨((s.data.dropWhile Char.isWhitespace).reverse.dropWhile
      Char.isWhitespace).reverse⟩

/-- The `Symbol`/`Num` fragment of the widget tree, for the rendering
claims: a maths-mode letter symbol (its `right`, `superscript` and
`subscript` docking points all exist) or a numeric literal (its `right` and
`superscript` points always exist, and its `right`/`superscript`
`hasOwnProperty` flags are both true because `generateDockingPoints` runs in
the base-class constructor before the field initializers). -/
inductive FTree where
  | symW (letter modifier : String) (superscript subscript right : Option FTree)
  | numW (significand : String) (superscript right : Option FTree)

/-- `child instanceof Num` over the fragment. -/
def isNumW : FTree → Bool
  | .numW _ _ _ => true
  | .symW _ _ _ _ _ => false

/-- The decimal shape `Number(significand)` parses to a finite value: digits
with at most one decimal point (the forms the number keypad produces;
exponent notation is outside the model). -/
def decimalShapeOk (cs : List Char) : Bool :=
  cs.all (fun c => c.isDigit || c = '.') && cs.count '.' ≤ 1 &&
    cs.any (fun c => c.isDigit)

/-- `Num.isNegative`, i.e. `Number(this.significand) < 0`, on keypad-shaped
significands: a leading minus followed by a decimal with some nonzero
digit (`Number("-0")` is negative zero, which is not `< 0`). -/
def jsNumberLtZero (s : String) : Bool :=
  match s.data with
  | '-' :: rest =>
    decimalShapeOk rest && rest.any (fun c => c.isDigit && (c != '0'))
  | _ => false

/-- The `instanceof Num` guard on an optional right child. -/
def optIsNum : Option FTree → Bool
  | some t => isNumW t
  | none => false

/-- `Num.isNegative` lifted to the fragment (false off `Num`, where the
`instanceof` guard short-circuits it). -/
def numIsNegativeW : FTree → Bool
  | .numW s _ _ => jsNumberLtZero s
  | .symW _ _ _ _ _ => false

/-- The `child instanceof Num && child.isNegative()` guard of `Symbol`'s
python branch. -/
def optNegNum : Option FTree → Bool
  | some t => isNumW t && numIsNegativeW t
  | none => false

mutual
/-- `Symbol.formatExpressionAs` and `Num.formatExpressionAs` over the
fragment, by output format.  The `instanceof BinaryOperation`,
`Relation` and `LogicBinaryOperation` guards are identically false over the
fragment and reduce to their else-branches; `Symbol` has no `mhchem` branch,
so that format falls through to the initial empty string. -/
def formatW (fmt : String) : FTree → String
  | .symW l mo sup sub r =>
    if fmt = "latex" then
      l ++ (if mo = "prime" then "\x27" else "") ++
        (if sup.isSome then "^\x7b" ++ formatWOpt fmt sup ++ "\x7d" else "") ++
        (if sub.isSome then "_\x7b" ++ formatWOpt fmt sub ++ "\x7d" else "") ++
        (if r.isSome then " " ++ formatWOpt fmt r else "")
    else if fmt = "python" then
      l ++ (if mo = "prime" then "_prime" else "") ++
        (if sub.isSome then "_" ++ formatWOpt "subscript" sub else "") ++
        (if sup.isSome then "**(" ++ formatWOpt fmt sup ++ ")" else "") ++
        (if r.isSome then
          (if optNegNum r then formatWOpt fmt r
            else "*" ++ formatWOpt fmt r)
          else "")
    else if fmt = "subscript" then
      l ++ (if mo = "prime" then "_prime" else "") ++
        (if sub.isSome then formatWOpt fmt sub else "") ++
        (if sup.isSome then formatWOpt fmt sup else "") ++
        (if r.isSome then formatWOpt fmt r else "")
    else if fmt = "mathml" then
      (let lp := l ++ (if mo = "prime" then "_prime" else "");
        (if !sub.isSome && !sup.isSome then "<mi>" ++ lp ++ "</mi>"
          else if sub.isSome && !sup.isSome then
            "<msub><mi>" ++ lp ++ "</mi><mrow>" ++ formatWOpt fmt sub ++
              "</mrow></msub>"
          else if !sub.isSome && sup.isSome then
            "<msup><mi>" ++ lp ++ "</mi><mrow>" ++ formatWOpt fmt sup ++
              "</mrow></msup>"
          else
            "<msubsup><mi>" ++ lp ++ "</mi><mrow>" ++ formatWOpt fmt sub ++
              "</mrow><mrow>" ++ formatWOpt fmt sup ++ "</mrow></msubsup>") ++
        (if r.isSome then formatWOpt "mathml" r else ""))
    else ""
  | .numW sg sup r =>
    if fmt = "latex" then
      sg ++ (if sup.isSome then "^\x7b" ++ formatWOpt fmt sup ++ "\x7d" else "") ++
        (if r.isSome then
          (if optIsNum r then "\\cdot " ++ formatWOpt fmt r
            else " " ++ formatWOpt fmt r)
          else "")
    else if fmt = "mhchem" then
      sg ++ (if sup.isSome then "^" ++ formatWOpt fmt sup else "") ++
        (if r.isSome then
          (if optIsNum r then "\\cdot " ++ formatWOpt fmt r
            else " " ++ formatWOpt fmt r)
          else "")
    else if fmt = "python" then
      sg ++ (if sup.isSome then "**(" ++ formatWOpt fmt sup ++ ")" else "") ++
        (if r.isSome then "*" ++ formatWOpt fmt r else "")
    else if fmt = "subscript" then
      sg ++ (if sup.isSome then formatWOpt fmt sup else "") ++
        (if r.isSome then formatWOpt fmt r else "")
    else if fmt = "mathml" then
      (if sup.isSome then
        "<msup><mn>" ++ sg ++ "</mn><mrow>" ++ formatWOpt fmt sup ++
          "</mrow></msup>"
        else "<mn>" ++ sg ++ "</mn>") ++
        (if r.isSome then formatWOpt "mathml" r else "")
    else ""
/-- The `child != null` recursions: format an optional child. -/
def formatWOpt (fmt : String) : Option FTree → String
  | some c => formatW fmt c
  | none => ""
end

/-- A freshly constructed maths-mode letter symbol `x`: empty modifier,
nothing docked. -/
def freshX : FTree := .symW "x" "" none none none

/-- The literal `2` with the letter symbol `x` docked at its `right`
point. -/
def twoTimesX : FTree := .numW "2" none (some freshX)

/-- `new Brackets(this.p, this.s, "round", this.mode)`: the fresh round
brackets the rewrite constructs — a root widget with the docking points
`Brackets.generateDockingPoints` creates for the editor mode (`argument` and
`right` always; `superscript` and the mode-typed `subscript` outside logic
mode) and the `Brackets` constructor's `docksTo`. -/
def freshBrackets (mode : String) : ArenaWidget :=
  ⟨["symbol", "exponent", "subscript", "chemical_element", "relation",
      "differential_argument"],
    "", none,
    [⟨"argument", ["symbol", "differential"], none⟩,
      ⟨"right", ["operator_brackets"], none⟩] ++
      (if mode ≠ "logic" then
        [⟨"superscript", ["exponent"], none⟩,
          ⟨"subscript",
            (if mode = "chemistry" then ["subscript"]
              else ["symbol_subscript", "subscript_maths"]), none⟩]
        else []),
    "Brackets"⟩

/-- The structural rewrite at the head of `Fraction._shakeIt` on the arena,
with `fid` the fraction's id and `bid` the fresh id the new brackets take:
when `this.parentWidget instanceof Num` and the parent's `right` docking
point holds this fraction, dock the new brackets at the parent's `right`
(the `child` setter first clears the fraction's attachment side — the "DO
NOT SWAP" order), dock the fraction at the brackets' `argument`, move the
fraction's `right` child (re-read live, but unchanged by the first two
assignments) to the brackets' `right`, and clear the fraction's `right`;
then `return`.  Off the trigger, `_shakeIt` only repositions and rescales,
so the tree structure is returned unchanged. -/
def fractionShakeRewrite (a : Arena) (fid bid : Nat) (mode : String) :
    Arena :=
  match lookupW a fid with
  | none => a
  | some frac =>
    match frac.parentWidget with
    | none => a
    | some nid =>
      match lookupW a nid with
      | none => a
      | some np =>
        if np.wtype = "Num" ∧ dpChildOf a nid "right" = some fid then
          let a0 := a ++ [(bid, freshBrackets mode)]
          let a1 := dockingPointSetChild a0 nid "right" (some bid)
          let a2 := dockingPointSetChild a1 bid "argument" (some fid)
          let a3 := dockingPointSetChild a2 bid "right"
            (dpChildOf a2 fid "right")
          dockingPointSetChild a3 fid "right" none
        else a

/-- Side condition for the rewrite spec: the fraction's current `right`
child, if any, is a distinct widget from the fraction, its `Num` parent and
the fresh brackets id (in a tree it is a proper descendant, and fresh ids
come from the monotone counter). -/
def rcFreshOk (a : Arena) (fid bid nid : Nat) : Bool :=
  match dpChildOf a fid "right" with
  | some rid => rid != fid && rid != bid && rid != nid
  | none => true

/-- The `Num` 2 of the concrete rewrite example: its `right` point holds the
fraction (id 2), its exponent point is empty. -/
def c4Num : ArenaWidget :=
  ⟨[], "", none,
    [⟨"right", ["operator"], some 2⟩, ⟨"superscript", ["exponent"], none⟩],
    "Num"⟩

/-- The fraction of the concrete rewrite example: docked at the `Num`'s
`right`, with a letter symbol (id 3) at its own `right`. -/
def c4Frac : ArenaWidget :=
  ⟨["symbol"], "right", some 1,
    [⟨"right", ["operator"], some 3⟩, ⟨"numerator", ["symbol"], none⟩,
      ⟨"denominator", ["symbol"], none⟩],
    "Fraction"⟩

/-- A three-widget arena — `2` at id 1, a fraction docked at its `right`
(id 2), and a letter symbol at the fraction's `right` (id 3) — that the
`Fraction._shakeIt` trigger fires on. -/
def c4Arena : Arena :=
  [(1, c4Num), (2, c4Frac),
    (3, ⟨["operator"], "right", some 2, [], "Symbol"⟩)]

/-- One test of the `while (null !== p)` loop of
`Differential.sonOfADerivative`, on the loop variable `p`: exit with `false`
when `p` is null, exit with `true` when `p` is a `Derivative`, otherwise
re-assign `p = this.parentWidget` — the loop body reads `this.parentWidget`
again, not `p.parentWidget`, so the walk never advances past the immediate
parent.  `parentType` is `typeAsString` of `this.parentWidget` (`none` for a
root), constant for the whole evaluation. -/
def sonStep (parentType : Option String) (p : Option String) :
    Sum Bool (Option String) :=
  match p with
  | none => .inl false
  | some t => if t = "Derivative" then .inl true else .inr parentType

/-- The loop run for at most `fuel` iterations: `none` when the fuel is
exhausted without the loop exiting, `some b` when it returns `b`. -/
def sonLoop (parentType : Option String) : Option String → Nat → Option Bool
  | _, 0 => none
  | p, fuel+1 =>
    match sonStep parentType p with
    | .inl b => some b
    | .inr p2 => sonLoop parentType p2 fuel

/-- `Differential.sonOfADerivative`: the loop started at
`p = this.parentWidget`. -/
def sonOfADerivativeRun (parentType : Option String) (fuel : Nat) :
    Option Bool :=
  sonLoop parentType parentType fuel

/-- `Differential.isDetachable`:
`document.location.pathname == '/equality' || userIsPrivileged ||
!this.sonOfADerivative`, with JavaScript's short-circuiting `||` — the
ancestry loop runs only when the first two tests are false. -/
def isDetachableRun (onEqualityPage userIsPrivileged : Bool)
    (parentType : Option String) (fuel : Nat) : Option Bool :=
  if onEqualityPage then some true
  else if userIsPrivileged then some true
  else (sonOfADerivativeRun parentType fuel).map (fun b => !b)

/-- The environment the layout pass reads: the font sizes, the docking-point
base size, the `xBox`/`mBox` metrics, and the two font-metric providers
(`font_it.textBounds` and `font_up.textBounds`, as functions of the text and
the size argument `scale * baseFontSize`). -/
structure IEnv where
  baseFontSize : ℚ
  baseDockingPointSize : ℚ
  xBoxH : ℚ
  mBoxH : ℚ
  mBoxW : ℚ
  fontIt : String → ℚ → RectQ
  fontUp : String → ℚ → RectQ

/-- The mutable layout state of a maths-mode `Symbol`, `Num` or `Fraction`
subtree: each node carries its `scale`, its `position` (relative to the
parent; for a root, to the canvas), the stored `position` of each of its
docking points, and the optional child at each point.  `Symbol` has `right`,
`superscript` and `subscript` points; `Num` has `right` and `superscript`;
`Fraction` has `right`, `numerator` and `denominator`. -/
inductive EW where
  | symE (letter modifier : String) (scale : ℚ)
      (position dpSup dpSub dpRight : Vec) (sup sub right : Option EW)
  | numE (significand : String) (scale : ℚ) (position dpSup dpRight : Vec)
      (sup right : Option EW)
  | fracE (scale : ℚ) (position dpRight dpNum dpDen : Vec)
      (right num den : Option EW)

/-- `this.scale`. -/
def EW.scaleOf : EW → ℚ
  | .symE _ _ s _ _ _ _ _ _ _ => s
  | .numE _ s _ _ _ _ _ => s
  | .fracE s _ _ _ _ _ _ _ => s

/-- `this.position`. -/
def EW.posOf : EW → Vec
  | .symE _ _ _ p _ _ _ _ _ _ => p
  | .numE _ _ p _ _ _ _ => p
  | .fracE _ p _ _ _ _ _ _ => p

/-- `child.position.x = ...; child.position.y = ...`: store a new position
on a node (the rest of its state untouched). -/
def EW.setPos : EW → Vec → EW
  | .symE l m s _ dS dSb dR sup sub right, v =>
    .symE l m s v dS dSb dR sup sub right
  | .numE sg s _ dS dR sup right, v => .numE sg s v dS dR sup right
  | .fracE s _ dR dN dD right num den, v => .fracE s v dR dN dD right num den

/-- Box union as every bounding-box getter computes it: `min` of lefts and
tops, `max` of rights and bottoms. -/
def RectQ.union (a b : RectQ) : RectQ :=
  ⟨min a.x b.x, min a.y b.y,
    max (a.x + a.w) (b.x + b.w) - min a.x b.x,
    max (a.y + a.h) (b.y + b.h) - min a.y b.y⟩

/-- Translate a box by a vector (a child's box expressed in the parent's
frame; the absolute positions the source adds and subtracts cancel to
this). -/
def RectQ.translate (r : RectQ) (v : Vec) : RectQ :=
  ⟨r.x + v.x, r.y + v.y, r.w, r.h⟩

/-- The four geometry getters of a widget, relative to the widget itself:
`boundingBox()`, `dockingPointsBoundingBox`,
`subtreeDockingPointsBoundingBox` and `subtreeBoundingBox`. -/
structure GeomQ where
  bb : RectQ
  dpBB : RectQ
  sdpBB : RectQ
  sBB : RectQ

/-- The text `Symbol.boundingBox` measures:
`this.letter + (this.modifier == "prime" ? "\x27\x27" : "")`. -/
def symText (l m : String) : String :=
  l ++ (if m = "prime" then "\x27\x27" else "")

/-- `Symbol.boundingBox()`. -/
def symBox (env : IEnv) (l m : String) (sc : ℚ) : RectQ :=
  let box := env.fontIt (symText l m) (sc * env.baseFontSize)
  ⟨-box.w / 2, box.y, box.w, box.h⟩

/-- `Num.boundingBox()` (the text falls back to `"x"` when the significand
is the empty string — `this.getFullText() || "x"`). -/
def numBox (env : IEnv) (sg : String) (sc : ℚ) : RectQ :=
  let box := env.fontUp (if sg = "" then "x" else sg) (sc * env.baseFontSize)
  ⟨-box.w / 2, box.y, box.w, box.h⟩

/-- Modelled from the spec: the `DockingPoint` class is not among the given
sources.  Per the spec a docking point carries "a size/scale factor"
(`2/3` for script points, `1` elsewhere), so its rendered `size` is that
factor applied to the owner's `dockingPointSize`
(`this.scale * this.s.baseDockingPointSize`).  The idempotence result is
insensitive to the exact formula: any size depending only on the owner's
scale and the environment supports the same argument. -/
def dpSizeOf (env : IEnv) (ownerScale dpScale : ℚ) : ℚ :=
  dpScale * (ownerScale * env.baseDockingPointSize)

/-- The box an empty docking point contributes to `dockingPointsBoxes`
(an occupied point contributes none); the box side is the owner's
`dockingPointSize`. -/
def emptyDPBox (dpsz : ℚ) (p : Vec) : Option EW → List RectQ
  | none => [⟨p.x - dpsz / 2, p.y - dpsz / 2, dpsz, dpsz⟩]
  | some _ => []

mutual
/-- The geometry getters, computed together in one bottom-up recursion:
`boundingBox()` per type (`Fraction`'s width is the max of the `+` glyph
width and the numerator/denominator subtree widths, with
`Rect(0, 0, baseDockingPointSize, 0)` for an empty slot);
`dockingPointsBoundingBox` as the union of the bounding box and the empty
docking points' boxes; `subtreeDockingPointsBoundingBox` and
`subtreeBoundingBox` as unions with the children's boxes shifted by the
children's positions (the absolute positions the source uses cancel).  None
of the getters reads the widget's own `position`. -/
def geomOf (env : IEnv) : EW → GeomQ
  | .symE l m s _ dS dSb dR sup sub right =>
    let bb := symBox env l m s
    let dpsz := s * env.baseDockingPointSize
    let dpBB := List.foldl RectQ.union bb
      (emptyDPBox dpsz dR right ++ emptyDPBox dpsz dS sup ++
        emptyDPBox dpsz dSb sub)
    let sdpBB := addChildSDPB env
      (addChildSDPB env (addChildSDPB env dpBB right) sup) sub
    let sBB := addChildSB env
      (addChildSB env (addChildSB env bb right) sup) sub
    ⟨bb, dpBB, sdpBB, sBB⟩
  | .numE sg s _ dS dR sup right =>
    let bb := numBox env sg s
    let dpsz := s * env.baseDockingPointSize
    let dpBB := List.foldl RectQ.union bb
      (emptyDPBox dpsz dR right ++ emptyDPBox dpsz dS sup)
    let sdpBB := addChildSDPB env (addChildSDPB env dpBB right) sup
    let sBB := addChildSB env (addChildSB env bb right) sup
    ⟨bb, dpBB, sdpBB, sBB⟩
  | .fracE s _ dR dN dD right num den =>
    let box := env.fontUp "+" (s * env.baseFontSize)
    let numBoxR := sdpbOrDefault env (env.baseDockingPointSize) num
    let denBoxR := sdpbOrDefault env (env.baseDockingPointSize) den
    let width := max box.w (max numBoxR.w denBoxR.w)
    let bb : RectQ := ⟨-width / 2, -box.h / 2, width, box.h⟩
    let dpsz := s * env.baseDockingPointSize
    let dpBB := List.foldl RectQ.union bb
      (emptyDPBox dpsz dR right ++ emptyDPBox dpsz dN num ++
        emptyDPBox dpsz dD den)
    let sdpBB := addChildSDPB env
      (addChildSDPB env (addChildSDPB env dpBB right) num) den
    let sBB := addChildSB env
      (addChildSB env (addChildSB env bb right) num) den
    ⟨bb, dpBB, sdpBB, sBB⟩
/-- Accumulate a present child's `subtreeDockingPointsBoundingBox`, shifted
by the child's position, into the union. -/
def addChildSDPB (env : IEnv) (acc : RectQ) : Option EW → RectQ
  | some cw => RectQ.union acc (((geomOf env cw).sdpBB).translate cw.posOf)
  | none => acc
/-- Accumulate a present child's `subtreeBoundingBox` likewise. -/
def addChildSB (env : IEnv) (acc : RectQ) : Option EW → RectQ
  | some cw => RectQ.union acc (((geomOf env cw).sBB).translate cw.posOf)
  | none => acc
/-- `Fraction._numeratorBox` / `_denominatorBox`: the child's
`subtreeDockingPointsBoundingBox`, or `Rect(0, 0, baseDockingPointSize, 0)`
for an empty slot. -/
def sdpbOrDefault (env : IEnv) (d : ℚ) : Option EW → RectQ
  | some c => (geomOf env c).sdpBB
  | none => ⟨0, 0, d, 0⟩
end

/-- Each type's `dockingPoint` getter: `(0, -scale*xBox.h/2)` for `Symbol`
and `Num`, the origin for `Fraction`. -/
def dockingPointOf (env : IEnv) : EW → Vec
  | .symE _ _ s _ _ _ _ _ _ _ => ⟨0, -(s * env.xBoxH) / 2⟩
  | .numE _ s _ _ _ _ _ => ⟨0, -(s * env.xBoxH) / 2⟩
  | .fracE _ _ _ _ _ _ _ _ => ⟨0, 0⟩

/-- `Widget.leftBound`:
`this.dockingPoint.x - this.subtreeDockingPointsBoundingBox.x`. -/
def leftBoundOf (env : IEnv) (w : EW) : ℚ :=
  (dockingPointOf env w).x - (geomOf env w).sdpBB.x

/-- `Widget.topBound`:
`this.dockingPoint.y - this.subtreeDockingPointsBoundingBox.y`. -/
def topBoundOf (env : IEnv) (w : EW) : ℚ :=
  (dockingPointOf env w).y - (geomOf env w).sdpBB.y

/-- The `superscript` block of `Symbol._shakeIt` and `Num._shakeIt`
(identical in both): position the child (or the empty point) and report the
superscript width. -/
def shakeSupSlot (env : IEnv) (sc : ℚ) (thisBox : RectQ) (dOld : Vec) :
    Option EW → Option EW × Vec × ℚ
  | some c =>
    let sb := (geomOf env c).sdpBB
    (some (c.setPos ⟨thisBox.x + thisBox.w + leftBoundOf env c +
        c.scaleOf * dpSizeOf env sc (2/3) / 2,
      -(sc * env.xBoxH) - (sb.y + sb.h)⟩),
      dOld, max (dpSizeOf env sc (2/3)) sb.w)
  | none =>
    (none,
      ⟨thisBox.x + thisBox.w + dpSizeOf env sc (2/3) / 2,
        -(sc * env.mBoxH)⟩,
      dpSizeOf env sc (2/3))

/-- The `subscript` block of `Symbol._shakeIt`. -/
def shakeSubSlot (env : IEnv) (sc : ℚ) (thisBox : RectQ) (dOld : Vec) :
    Option EW → Option EW × Vec × ℚ
  | some c =>
    let sb := (geomOf env c).sdpBB
    (some (c.setPos ⟨thisBox.x + thisBox.w + leftBoundOf env c +
        c.scaleOf * dpSizeOf env sc (2/3) / 3,
      topBoundOf env c⟩),
      dOld, max (dpSizeOf env sc (2/3)) sb.w)
  | none =>
    (none,
      ⟨thisBox.x + thisBox.w + dpSizeOf env sc (2/3) / 2, 0⟩,
      dpSizeOf env sc (2/3))

/-- The `right` block of `Symbol._shakeIt` and `Num._shakeIt`, with `shift`
the preceding script width (`max(superscriptWidth, subscriptWidth)` for
`Symbol`, `superscriptWidth` for `Num`). -/
def shakeRightSlot (env : IEnv) (sc : ℚ) (thisBox : RectQ) (dOld : Vec)
    (shift : ℚ) : Option EW → Option EW × Vec
  | some c =>
    (some (c.setPos ⟨thisBox.x + thisBox.w + leftBoundOf env c + shift +
        dpSizeOf env sc 1 / 2,
      -(sc * env.xBoxH) / 2 - (dockingPointOf env c).y⟩),
      dOld)
  | none =>
    (none,
      ⟨thisBox.x + thisBox.w + shift + dpSizeOf env sc 1,
        -(sc * env.xBoxH) / 2⟩)

/-- The `numerator` block of `Fraction._shakeIt` (note the empty-point `y`
uses the unscaled `xBox.h`). -/
def shakeNumSlot (env : IEnv) (sc : ℚ) (dOld : Vec) :
    Option EW → Option EW × Vec
  | some c =>
    let sb := (geomOf env c).sBB
    let sdpb := (geomOf env c).sdpBB
    (some (c.setPos ⟨-sb.x - sb.w / 2,
      -(dpSizeOf env sc 1) - (sdpb.y + sdpb.h)⟩), dOld)
  | none =>
    (none, ⟨0, -(env.xBoxH) / 2 - dpSizeOf env sc 1⟩)

/-- The `denominator` block of `Fraction._shakeIt`. -/
def shakeDenSlot (env : IEnv) (sc : ℚ) (dOld : Vec) :
    Option EW → Option EW × Vec
  | some c =>
    let sb := (geomOf env c).sBB
    let sdpb := (geomOf env c).sdpBB
    (some (c.setPos ⟨-sb.x - sb.w / 2, dpSizeOf env sc 1 - sdpb.y⟩), dOld)
  | none =>
    (none, ⟨0, env.xBoxH / 2 + dpSizeOf env sc 1⟩)

/-- The `right` block of `Fraction._shakeIt`; the empty-point `x` reads
`this.subtreeBoundingBox` of the fraction with its numerator and denominator
already positioned. -/
def shakeRightSlotFrac (env : IEnv) (sc : ℚ) (wPartial : EW)
    (thisBox : RectQ) (dOld : Vec) : Option EW → Option EW × Vec
  | some c =>
    (some (c.setPos ⟨thisBox.x + thisBox.w + leftBoundOf env c +
        dpSizeOf env sc 1 / 2,
      -((dockingPointOf env c).y)⟩), dOld)
  | none =>
    (none, ⟨(geomOf env wPartial).sBB.w / 2 + dpSizeOf env sc 1, 0⟩)

/-- `Fraction.boundingBox()` over the (already shaken) children. -/
def fracBox (env : IEnv) (sc : ℚ) (num den : Option EW) : RectQ :=
  let box := env.fontUp "+" (sc * env.baseFontSize)
  let numBoxR := sdpbOrDefault env (env.baseDockingPointSize) num
  let denBoxR := sdpbOrDefault env (env.baseDockingPointSize) den
  let width := max box.w (max numBoxR.w denBoxR.w)
  ⟨-width / 2, -box.h / 2, width, box.h⟩

/-- `this.parentWidget.dockingPoints["right"].child` is a `Fraction`: the
`Fraction._shakeIt` rewrite trigger, seen from the `Num` parent. -/
def isFracOpt : Option EW → Bool
  | some (.fracE _ _ _ _ _ _ _ _) => true
  | some (.symE _ _ _ _ _ _ _ _ _ _) => false
  | some (.numE _ _ _ _ _ _ _) => false
  | none => false

mutual
/-- One `_shakeIt()` call on a node whose scale the caller has just set to
`sc` (`_shakeItDown` assigns `child.scale = this.scale * dp.scale` before
recursing; the root keeps its own scale): recursively shake the children,
then place each child and each empty docking point by the per-type geometric
rules, leaving the node's own `position` and the stored positions of
occupied docking points untouched, as the source does.  Returns `none` when
a `Fraction` occupies a `Num`'s `right` point anywhere below: there
`Fraction._shakeIt` would restructure the tree instead of laying it out. -/
def shakeW (env : IEnv) (sc : ℚ) : EW → Option EW
  | .symE l m _ pos dS dSb dR sup sub right =>
    match shakeOpt env (sc * (2/3)) sup, shakeOpt env (sc * (2/3)) sub,
        shakeOpt env (sc * 1) right with
    | some sup1, some sub1, some right1 =>
      let thisBox := symBox env l m sc
      let supR := shakeSupSlot env sc thisBox dS sup1
      let subR := shakeSubSlot env sc thisBox dSb sub1
      let rightR := shakeRightSlot env sc thisBox dR
        (max supR.2.2 subR.2.2) right1
      some (.symE l m sc pos supR.2.1 subR.2.1 rightR.2
        supR.1 subR.1 rightR.1)
    | _, _, _ => none
  | .numE sg _ pos dS dR sup right =>
    if isFracOpt right then none
    else
      match shakeOpt env (sc * (2/3)) sup, shakeOpt env (sc * 1) right with
      | some sup1, some right1 =>
        let thisBox := numBox env sg sc
        let supR := shakeSupSlot env sc thisBox dS sup1
        let rightR := shakeRightSlot env sc thisBox dR supR.2.2 right1
        some (.numE sg sc pos supR.2.1 rightR.2 supR.1 rightR.1)
      | _, _ => none
  | .fracE _ pos dR dN dD right num den =>
    match shakeOpt env (sc * 1) right, shakeOpt env (sc * 1) num,
        shakeOpt env (sc * 1) den with
    | some right1, some num1, some den1 =>
      let thisBox := fracBox env sc num1 den1
      let numR := shakeNumSlot env sc dN num1
      let denR := shakeDenSlot env sc dD den1
      let wPartial := EW.fracE sc pos dR numR.2 denR.2 none numR.1 denR.1
      let rightR := shakeRightSlotFrac env sc wPartial thisBox dR right1
      some (.fracE sc pos rightR.2 numR.2 denR.2 rightR.1 numR.1 denR.1)
    | _, _, _ => none
/-- Shake an optional child (`some none`: the point is empty, nothing to
do). -/
def shakeOpt (env : IEnv) (sc : ℚ) : Option EW → Option (Option EW)
  | none => some none
  | some c => (shakeW env sc c).map some
end

mutual
/-- No rewrite trigger is pending anywhere in the tree: no `Fraction`
occupies the `right` docking point of a `Num`. -/
def noTriggerB : EW → Bool
  | .symE _ _ _ _ _ _ _ sup sub right =>
    noTriggerOpt sup && noTriggerOpt sub && noTriggerOpt right
  | .numE _ _ _ _ _ sup right =>
    !isFracOpt right && noTriggerOpt sup && noTriggerOpt right
  | .fracE _ _ _ _ _ right num den =>
    noTriggerOpt right && noTriggerOpt num && noTriggerOpt den
/-- No trigger below an optional child. -/
def noTriggerOpt : Option EW → Bool
  | none => true
  | some c => noTriggerB c
end

end Inequality

namespace Inequality

theorem closestScan_some_ne_none (testPoint : Vec) :
    ∀ (l : List CanvasDP) (m : ℚ) (c : CanvasDP),
      closestScan testPoint l (some (m, c)) ≠ none := by
  intro l
  induction l with
  | nil => intro m c h; simp [closestScan] at h
  | cons dp rest ih =>
    intro m c h
    rw [closestScan] at h
    split at h
    · exact ih _ _ h
    · exact ih _ _ h

theorem closestScan_acc_spec (testPoint : Vec) :
    ∀ (l : List CanvasDP) (m₀ : ℚ) (c₀ : CanvasDP) (m : ℚ) (c : CanvasDP),
      closestScan testPoint l (some (m₀, c₀)) = some (m, c) →
      (m = m₀ ∧ c = c₀ ∧
        ∀ x ∈ l, m₀ ≤ distSq testPoint x.absolutePosition) ∨
      (m = distSq testPoint c.absolutePosition ∧ m < m₀ ∧
        ∃ l₁ l₂, l = l₁ ++ c :: l₂ ∧
          (∀ x ∈ l₁, m < distSq testPoint x.absolutePosition) ∧
          (∀ x ∈ l₂, m ≤ distSq testPoint x.absolutePosition)) := by
  intro l
  induction l with
  | nil =>
    intro m₀ c₀ m c h
    simp [closestScan] at h
    exact Or.inl ⟨h.1.symm, h.2.symm, by simp⟩
  | cons dp rest ih =>
    intro m₀ c₀ m c h
    rw [closestScan] at h
    split at h
    next hlt =>
      rcases ih _ _ _ _ h with ⟨hm, hc, hall⟩ | ⟨hm, hlt', l₁, l₂, hsplit, h₁, h₂⟩
      · subst hm; subst hc
        refine Or.inr ⟨rfl, hlt, [], rest, by simp, by simp, ?_⟩
        intro x hx; exact hall x hx
      · refine Or.inr ⟨hm, lt_trans hlt' hlt, dp :: l₁, l₂, by simp [hsplit], ?_, h₂⟩
        intro x hx
        rcases List.mem_cons.mp hx with hx | hx
        · subst hx; exact hlt'
        · exact h₁ x hx
    next hge =>
      push_neg at hge
      rcases ih _ _ _ _ h with ⟨hm, hc, hall⟩ | ⟨hm, hlt', l₁, l₂, hsplit, h₁, h₂⟩
      · subst hm; subst hc
        refine Or.inl ⟨rfl, rfl, ?_⟩
        intro x hx
        rcases List.mem_cons.mp hx with hx | hx
        · subst hx; exact hge
        · exact hall x hx
      · refine Or.inr ⟨hm, hlt', dp :: l₁, l₂, by simp [hsplit], ?_, h₂⟩
        intro x hx
        rcases List.mem_cons.mp hx with hx | hx
        · subst hx; exact lt_of_lt_of_le hlt' hge
        · exact h₁ x hx

theorem closestScan_none_spec (testPoint : Vec) (l : List CanvasDP)
    (m : ℚ) (c : CanvasDP)
    (h : closestScan testPoint l none = some (m, c)) :
    m = distSq testPoint c.absolutePosition ∧ FirstMin testPoint l c := by
  match l with
  | [] => simp [closestScan] at h
  | dp :: rest =>
    rw [closestScan] at h
    rcases closestScan_acc_spec testPoint rest _ _ _ _ h with
      ⟨hm, hc, hall⟩ | ⟨hm, hlt0, l₁, l₂, hsplit, h₁, h₂⟩
    · subst hm; subst hc
      exact ⟨rfl, [], rest, by simp, by simp, hall⟩
    · subst hm
      refine ⟨rfl, dp :: l₁, l₂, by simp [hsplit], ?_, h₂⟩
      intro x hx
      rcases List.mem_cons.mp hx with hx | hx
      · subst hx; exact hlt0
      · exact h₁ x hx

theorem closestScan_none_eq (testPoint : Vec) (l : List CanvasDP)
    (h : closestScan testPoint l none = none) : l = [] := by
  cases l with
  | nil => rfl
  | cons dp rest =>
    rw [closestScan] at h
    exact absurd h (closestScan_some_ne_none testPoint rest _ dp)

theorem FirstMin.mem {testPoint : Vec} {l : List CanvasDP} {c : CanvasDP}
    (h : FirstMin testPoint l c) : c ∈ l := by
  obtain ⟨l₁, l₂, hsplit, -, -⟩ := h
  subst hsplit
  simp

theorem FirstMin.min {testPoint : Vec} {l : List CanvasDP} {c : CanvasDP}
    (h : FirstMin testPoint l c) :
    ∀ x ∈ l, distSq testPoint c.absolutePosition ≤ distSq testPoint x.absolutePosition := by
  obtain ⟨l₁, l₂, hsplit, h₁, h₂⟩ := h
  subst hsplit
  intro x hx
  rcases List.mem_append.mp hx with hx | hx
  · exact le_of_lt (h₁ x hx)
  · rcases List.mem_cons.mp hx with hx | hx
    · subst hx; exact le_refl _
    · exact h₂ x hx

/-- **C3.** `findClosestDockingPoint` returns the docking point at minimum
Euclidean distance from the test position among exactly the candidates whose
type list meets the visible docking-point types (the moving widget's
`docksTo`); it returns a candidate only when that minimum distance is within
`1.5 × baseFontSize` (stated on squared distances, equivalently), and `null`
(`none`) otherwise; equidistant compatible candidates resolve to the first
one in iteration order over the candidate list (`FirstMin`). -/
theorem findClosestDockingPoint_nearest (visibleTypes : List String)
    (pts : List CanvasDP) (baseFontSize : ℚ) (testPoint : Vec) :
    (∀ dp, findClosestDockingPoint visibleTypes pts baseFontSize testPoint = some dp →
      dp ∈ pts ∧ typesCompatible visibleTypes dp = true ∧
      distSq testPoint dp.absolutePosition ≤
        (baseFontSize * (3/2)) * (baseFontSize * (3/2)) ∧
      (∀ dp' ∈ pts, typesCompatible visibleTypes dp' = true →
        distSq testPoint dp.absolutePosition ≤ distSq testPoint dp'.absolutePosition) ∧
      FirstMin testPoint (pts.filter (fun e => typesCompatible visibleTypes e)) dp) ∧
    (findClosestDockingPoint visibleTypes pts baseFontSize testPoint = none →
      ∀ dp' ∈ pts, typesCompatible visibleTypes dp' = true →
        (baseFontSize * (3/2)) * (baseFontSize * (3/2)) <
          distSq testPoint dp'.absolutePosition) := by
  have hmem : ∀ dp' ∈ pts, typesCompatible visibleTypes dp' = true →
      dp' ∈ pts.filter (fun e => typesCompatible visibleTypes e) := by
    intro dp' h1 h2
    exact List.mem_filter.mpr ⟨h1, h2⟩
  unfold findClosestDockingPoint
  dsimp only
  cases hscan : closestScan testPoint
      (pts.filter (fun e => typesCompatible visibleTypes e)) none with
  | none =>
    have hnil := closestScan_none_eq testPoint _ hscan
    constructor
    · intro dp h; simp at h
    · intro _ dp' h1 h2
      have := hmem dp' h1 h2
      rw [hnil] at this
      simp at this
  | some mc =>
    obtain ⟨m, c⟩ := mc
    obtain ⟨hm, hfm⟩ := closestScan_none_spec testPoint _ m c hscan
    have hcmem := List.mem_filter.mp hfm.mem
    by_cases hle : m ≤ (baseFontSize * (3/2)) * (baseFontSize * (3/2))
    · constructor
      · intro dp h
        simp only [hle, if_true] at h
        injection h with h
        subst h
        refine ⟨hcmem.1, hcmem.2, hm ▸ hle, ?_, hfm⟩
        intro dp' h1 h2
        exact hm ▸ hfm.min dp' (hmem dp' h1 h2)
      · intro h
        simp only [hle, if_true] at h
        exact Option.noConfusion h
    · constructor
      · intro dp h
        simp only [hle, if_false] at h
        exact Option.noConfusion h
      · intro _ dp' h1 h2
        have h3 := hfm.min dp' (hmem dp' h1 h2)
        have h4 : (baseFontSize * (3/2)) * (baseFontSize * (3/2)) < m :=
          lt_of_not_le hle
        exact lt_of_lt_of_le h4 (hm ▸ h3)

/-- Witness for C3: three candidates, two compatible with a moving widget
docking to `operator`; the origin-adjacent compatible one is returned, is
within threshold for `baseFontSize = 50`, and is minimal. -/
theorem findClosestDockingPoint_nearest_witness :
    (⟨["operator"], ⟨0, 0⟩⟩ : CanvasDP) ∈
        [(⟨["operator"], ⟨0, 0⟩⟩ : CanvasDP), ⟨["operator"], ⟨3, 4⟩⟩,
          ⟨["exponent"], ⟨0, 1⟩⟩] ∧
      typesCompatible ["operator"] ⟨["operator"], ⟨0, 0⟩⟩ = true ∧
      distSq ⟨1, 1⟩ (⟨0, 0⟩ : Vec) ≤ ((50 : ℚ) * (3/2)) * (50 * (3/2)) ∧
      (∀ dp' ∈ [(⟨["operator"], ⟨0, 0⟩⟩ : CanvasDP), ⟨["operator"], ⟨3, 4⟩⟩,
          ⟨["exponent"], ⟨0, 1⟩⟩], typesCompatible ["operator"] dp' = true →
        distSq ⟨1, 1⟩ (⟨0, 0⟩ : Vec) ≤ distSq ⟨1, 1⟩ dp'.absolutePosition) ∧
      FirstMin ⟨1, 1⟩
        (([(⟨["operator"], ⟨0, 0⟩⟩ : CanvasDP), ⟨["operator"], ⟨3, 4⟩⟩,
          ⟨["exponent"], ⟨0, 1⟩⟩]).filter
            (fun e => typesCompatible ["operator"] e))
        ⟨["operator"], ⟨0, 0⟩⟩ :=
  (findClosestDockingPoint_nearest ["operator"]
      [⟨["operator"], ⟨0, 0⟩⟩, ⟨["operator"], ⟨3, 4⟩⟩, ⟨["exponent"], ⟨0, 1⟩⟩]
      50 ⟨1, 1⟩).1 ⟨["operator"], ⟨0, 0⟩⟩ (by
        norm_num [findClosestDockingPoint, closestScan, distSq, typesCompatible,
          List.filter])

theorem lookupW_updateW (a : Arena) (j : Nat) (f : ArenaWidget → ArenaWidget)
    (i : Nat) :
    lookupW (updateW a j f) i =
      if i = j then (lookupW a i).map f else lookupW a i := by
  induction a with
  | nil => by_cases h : i = j <;> simp [lookupW, updateW, h]
  | cons p rest ih =>
    by_cases hpj : p.1 = j
    · by_cases hij : i = j
      · simp [lookupW, updateW, hpj, hij, ih]
      · have hji : ¬ j = i := fun h => hij h.symm
        simp [lookupW, updateW, hpj, hij, ih, hji]
    · by_cases hpi : p.1 = i
      · have hij : i ≠ j := fun h => hpj (hpi.symm ▸ h ▸ rfl)
        simp [lookupW, updateW, hpj, hpi, hij]
      · simp [lookupW, updateW, hpj, hpi, ih]

theorem keys_updateW (a : Arena) (j : Nat) (f : ArenaWidget → ArenaWidget) :
    (updateW a j f).map Prod.fst = a.map Prod.fst := by
  induction a with
  | nil => rfl
  | cons p rest ih =>
    by_cases hpj : p.1 = j <;> simp [updateW, hpj, ih]

theorem keysNodup_updateW (a : Arena) (j : Nat)
    (f : ArenaWidget → ArenaWidget) :
    keysNodup (updateW a j f) = keysNodup a := by
  unfold keysNodup
  rw [keys_updateW]

theorem lookupW_mem (a : Arena) (i : Nat) (w : ArenaWidget)
    (h : lookupW a i = some w) : (i, w) ∈ a := by
  induction a with
  | nil => simp [lookupW] at h
  | cons p rest ih =>
    rw [lookupW] at h
    split at h
    next heq =>
      injection h with h
      have hp : p = (i, w) := by
        cases p
        simp_all
      rw [hp]
      exact List.mem_cons_self _ _
    next =>
      right
      exact ih h

theorem mem_lookupW (a : Arena) (i : Nat) (w : ArenaWidget)
    (hnd : keysNodup a = true) (h : (i, w) ∈ a) : lookupW a i = some w := by
  induction a with
  | nil => simp at h
  | cons p rest ih =>
    unfold keysNodup nodupKeysB at hnd
    simp only [List.map_cons, Bool.and_eq_true, Bool.not_eq_true'] at hnd
    rcases List.mem_cons.mp h with h | h
    · rw [← h]
      simp [lookupW]
    · have hkey : p.1 ≠ i := by
        intro hpi
        have hmemk : i ∈ rest.map Prod.fst := List.mem_map.mpr ⟨(i, w), h, rfl⟩
        have hcon : (rest.map Prod.fst).any (fun y => y == p.1) = true :=
          List.any_eq_true.mpr ⟨i, hmemk, by simp [hpi]⟩
        rw [hnd.1] at hcon
        exact Bool.noConfusion hcon
      rw [lookupW, if_neg hkey]
      exact ih hnd.2 h

theorem dockInvariantB_imp (a : Arena) (h : dockInvariantB a = true) :
    DockInvariant a := by
  intro i w hlook dp hdp c hchild
  have hmem := lookupW_mem a i w hlook
  have h1 := (List.all_eq_true.mp h) (i, w) hmem
  have h2 := (List.all_eq_true.mp h1) dp hdp
  rw [hchild] at h2
  have h3 : (match lookupW a c with
      | none => false
      | some wc => wc.parentWidget == some i && wc.dockedTo == dp.name) =
        true := h2
  cases hlc : lookupW a c with
  | none => rw [hlc] at h3; simp at h3
  | some wc =>
    rw [hlc] at h3
    simp only [Bool.and_eq_true, beq_iff_eq] at h3
    exact ⟨wc, rfl, h3.1, h3.2⟩

theorem dockInvariant_imp_B (a : Arena) (hnd : keysNodup a = true)
    (h : DockInvariant a) : dockInvariantB a = true := by
  apply List.all_eq_true.mpr
  intro p hp
  apply List.all_eq_true.mpr
  intro dp hdp
  cases hchild : dp.child with
  | none => rfl
  | some c =>
    have hlook := mem_lookupW a p.1 p.2 hnd hp
    obtain ⟨wc, hlc, hpar, hdt⟩ := h p.1 p.2 hlook dp hdp c hchild
    show (match lookupW a c with
      | none => false
      | some wc => wc.parentWidget == some p.1 && wc.dockedTo == dp.name) = true
    rw [hlc]
    simp [hpar, hdt]

end Inequality


namespace Inequality

theorem DockInvariant_ext (a b : Arena)
    (h : ∀ x, lookupW a x = lookupW b x) (hb : DockInvariant b) :
    DockInvariant a := by
  intro i w hlook dp hdp c hchild
  rw [h i] at hlook
  obtain ⟨wc, hlc, hpar, hdt⟩ := hb i w hlook dp hdp c hchild
  refine ⟨wc, ?_, hpar, hdt⟩
  rw [h c]
  exact hlc

theorem no_dp_holds_root (a : Arena) (hinv : DockInvariant a)
    (c : Nat) (cw : ArenaWidget) (hc : lookupW a c = some cw)
    (hroot : cw.parentWidget = none) :
    ∀ i w, lookupW a i = some w → ∀ dp ∈ w.dps, dp.child ≠ some c := by
  intro i w hlook dp hdp hchild
  obtain ⟨wc, hlc, hpar, -⟩ := hinv i w hlook dp hdp c hchild
  rw [hc] at hlc
  injection hlc with hlc
  rw [hlc] at hroot
  rw [hroot] at hpar
  exact Option.noConfusion hpar

theorem find?_name_of_namesNodup (dps : List ArenaDP)
    (hnn : namesNodupB dps = true) (dpf : ArenaDP) (hmem : dpf ∈ dps) :
    dps.find? (fun dp => dp.name == dpf.name) = some dpf := by
  induction dps with
  | nil => simp at hmem
  | cons hd rest ih =>
    rw [namesNodupB] at hnn
    simp only [Bool.and_eq_true, Bool.not_eq_true'] at hnn
    rcases List.mem_cons.mp hmem with hmem | hmem
    · rw [← hmem]
      simp [List.find?]
    · rw [List.find?]
      cases hbeq : (hd.name == dpf.name) with
      | true =>
        exfalso
        have : rest.any (fun e => e.name == hd.name) = true :=
          List.any_eq_true.mpr ⟨dpf, hmem, by
            rw [beq_iff_eq] at hbeq ⊢
            exact hbeq.symm⟩
        rw [hnn.1] at this
        exact Bool.noConfusion this
      | false => exact ih hnn.2 hmem

end Inequality

namespace Inequality

theorem dock_lookup_and_invariant (a : Arena) (owner : Nat) (nm : String)
    (c : Nat) (cw : ArenaWidget)
    (hinv : DockInvariant a)
    (hc : lookupW a c = some cw) (hroot : cw.parentWidget = none)
    (hne : c ≠ owner)
    (hempty : dpChildOf a owner nm = none) :
    DockInvariant (dockingPointSetChild a owner nm (some c)) ∧
    lookupW (dockingPointSetChild a owner nm (some c)) c =
      some (setAttachment owner nm cw) ∧
    lookupW (dockingPointSetChild a owner nm (some c)) owner =
      (lookupW a owner).map
        (fun w => { w with dps := setDPChild w.dps nm (some c) }) := by
  have hA : dockingPointSetChild a owner nm (some c) =
      updateW (updateW a owner
        (fun w => { w with dps := setDPChild w.dps nm (some c) }))
        c (setAttachment owner nm) := by
    unfold dockingPointSetChild
    rw [hempty]
  have hlk : ∀ x, lookupW (dockingPointSetChild a owner nm (some c)) x =
      if x = c then (lookupW a c).map (setAttachment owner nm)
      else if x = owner then (lookupW a x).map
        (fun w => { w with dps := setDPChild w.dps nm (some c) })
      else lookupW a x := by
    intro x
    rw [hA, lookupW_updateW, lookupW_updateW]
    by_cases hxc : x = c
    · subst hxc
      rw [if_pos rfl, if_pos rfl, if_neg hne]
    · rw [if_neg hxc, if_neg hxc]
  have hnodp := no_dp_holds_root a hinv c cw hc hroot
  have htrans : ∀ (j c' : Nat) (wc' : ArenaWidget) (nm' : String),
      c' ≠ c → lookupW a c' = some wc' → wc'.parentWidget = some j →
      wc'.dockedTo = nm' →
      ∃ wc'', lookupW (dockingPointSetChild a owner nm (some c)) c' =
        some wc'' ∧ wc''.parentWidget = some j ∧ wc''.dockedTo = nm' := by
    intro j c' wc' nm' hnec hl hp hd
    rw [hlk c', if_neg hnec]
    by_cases hco : c' = owner
    · subst hco
      rw [if_pos rfl, hl]
      exact ⟨_, rfl, hp, hd⟩
    · rw [if_neg hco]
      exact ⟨wc', hl, hp, hd⟩
  refine ⟨?_, ?_, ?_⟩
  · intro i w' hlook' dp' hdp' c' hchild'
    rw [hlk i] at hlook'
    by_cases hic : i = c
    · rw [if_pos hic, hc] at hlook'
      injection hlook' with hlook'
      have hdp0 : dp' ∈ cw.dps := by
        rw [← hlook'] at hdp'
        exact hdp'
      obtain ⟨wc', hl', hp', hd'⟩ := hinv c cw hc dp' hdp0 c' hchild'
      have hnec : c' ≠ c := by
        intro hcc
        rw [hcc, hc] at hl'
        injection hl' with hl'
        rw [← hl'] at hp'
        rw [hroot] at hp'
        exact Option.noConfusion hp'
      obtain ⟨wc'', hlo, hpo, hdo⟩ := htrans c c' wc' dp'.name hnec hl' hp' hd'
      exact ⟨wc'', hlo, by rw [hic]; exact hpo, hdo⟩
    · rw [if_neg hic] at hlook'
      by_cases hio : i = owner
      · rw [if_pos hio, hio] at hlook'
        cases ha : lookupW a owner with
        | none => rw [ha] at hlook'; simp at hlook'
        | some ow =>
          rw [ha] at hlook'
          injection hlook' with hlook'
          have hdps : dp' ∈ setDPChild ow.dps nm (some c) := by
            rw [← hlook'] at hdp'
            exact hdp'
          obtain ⟨dp₀, hdp₀, hdpeq⟩ := List.mem_map.mp hdps
          by_cases hname : dp₀.name = nm
          · rw [if_pos hname] at hdpeq
            have hcc : some c = some c' := by
              rw [← hdpeq] at hchild'
              exact hchild'
            injection hcc with hcc
            refine ⟨setAttachment owner nm cw, ?_, ?_, ?_⟩
            · rw [hlk c', ← hcc, if_pos rfl, hc]
              rfl
            · show some owner = some i
              rw [hio]
            · show nm = dp'.name
              rw [← hdpeq]
              exact hname.symm
          · rw [if_neg hname] at hdpeq
            rw [← hdpeq] at hchild'
            obtain ⟨wc', hl', hp', hd'⟩ := hinv owner ow ha dp₀ hdp₀ c' hchild'
            have hnec : c' ≠ c := fun hcc =>
              hnodp owner ow ha dp₀ hdp₀ (hcc ▸ hchild')
            obtain ⟨wc'', hlo, hpo, hdo⟩ :=
              htrans owner c' wc' dp₀.name hnec hl' hp' hd'
            refine ⟨wc'', hlo, by rw [hio]; exact hpo, ?_⟩
            rw [hdpeq] at hdo
            exact hdo
      · rw [if_neg hio] at hlook'
        obtain ⟨wc', hl', hp', hd'⟩ := hinv i w' hlook' dp' hdp' c' hchild'
        have hnec : c' ≠ c := fun hcc =>
          hnodp i w' hlook' dp' hdp' (hcc ▸ hchild')
        exact htrans i c' wc' dp'.name hnec hl' hp' hd'
  · rw [hlk c, if_pos rfl, hc]
    rfl
  · rw [hlk owner, if_neg (fun h => hne h.symm), if_pos rfl]

end Inequality

namespace Inequality

theorem touchEndedDock_spec (a : Arena) (owner : Nat) (nm : String)
    (c : Nat) (cw : ArenaWidget)
    (hinv : DockInvariant a)
    (hc : lookupW a c = some cw) (hroot : cw.parentWidget = none)
    (hne : c ≠ owner)
    (hempty : dpChildOf a owner nm = none) :
    DockInvariant (touchEndedDock a owner nm c) ∧
    lookupW (touchEndedDock a owner nm c) c =
      some (setAttachment owner nm cw) ∧
    lookupW (touchEndedDock a owner nm c) owner =
      (lookupW a owner).map
        (fun w => { w with dps := setDPChild w.dps nm (some c) }) := by
  obtain ⟨hinv', hlc', hlo'⟩ :=
    dock_lookup_and_invariant a owner nm c cw hinv hc hroot hne hempty
  have hpt : ∀ x, lookupW (touchEndedDock a owner nm c) x =
      lookupW (dockingPointSetChild a owner nm (some c)) x := by
    intro x
    unfold touchEndedDock
    rw [lookupW_updateW]
    by_cases hxc : x = c
    · rw [if_pos hxc, hxc, hlc']
      rfl
    · rw [if_neg hxc]
  refine ⟨DockInvariant_ext _ _ hpt hinv', ?_, ?_⟩
  · rw [hpt c]
    exact hlc'
  · rw [hpt owner]
    exact hlo'

theorem removeFromParent_spec (a : Arena) (i pid : Nat)
    (w pw : ArenaWidget) (dpf : ArenaDP)
    (hinv : DockInvariant a)
    (hw : lookupW a i = some w) (hpar : w.parentWidget = some pid)
    (hne : i ≠ pid)
    (hpw : lookupW a pid = some pw)
    (hnames : namesNodupB pw.dps = true)
    (hfind : pw.dps.find? (fun dp => dp.child == some i) = some dpf) :
    DockInvariant (removeFromParent a i) ∧
    lookupW (removeFromParent a i) i =
      some { w with dockedTo := "", parentWidget := none } ∧
    lookupW (removeFromParent a i) pid =
      some { pw with dps := setDPChild pw.dps dpf.name none } ∧
    (∀ dp ∈ setDPChild pw.dps dpf.name none, dp.child ≠ some i) := by
  have hdpfmem : dpf ∈ pw.dps := List.mem_of_find?_eq_some hfind
  have hdpfchild : dpf.child = some i := by
    have h := List.find?_some hfind
    rwa [beq_iff_eq] at h
  have ha1pid : lookupW (updateW a i
      (fun v => { v with dockedTo := "" })) pid = some pw := by
    rw [lookupW_updateW, if_neg (fun h => hne h.symm)]
    exact hpw
  have hA : removeFromParent a i =
      updateW (dockingPointSetChild
          (updateW a i (fun v => { v with dockedTo := "" })) pid dpf.name none)
        i (fun v => { v with parentWidget := none }) := by
    unfold removeFromParent
    simp only [hw, hpar, ha1pid, hfind]
  have hchildof : dpChildOf (updateW a i
      (fun v => { v with dockedTo := "" })) pid dpf.name = some i := by
    unfold dpChildOf
    simp only [ha1pid, find?_name_of_namesNodup pw.dps hnames dpf hdpfmem]
    exact hdpfchild
  have hB : dockingPointSetChild
      (updateW a i (fun v => { v with dockedTo := "" })) pid dpf.name none =
      updateW (updateW (updateW a i (fun v => { v with dockedTo := "" }))
          i clearAttachment)
        pid (fun v => { v with dps := setDPChild v.dps dpf.name none }) := by
    unfold dockingPointSetChild
    simp only [hchildof]
  have hlk : ∀ x, lookupW (removeFromParent a i) x =
      if x = i then some { w with dockedTo := "", parentWidget := none }
      else if x = pid then
        some { pw with dps := setDPChild pw.dps dpf.name none }
      else lookupW a x := by
    intro x
    rw [hA, hB, lookupW_updateW, lookupW_updateW, lookupW_updateW,
      lookupW_updateW]
    by_cases hxi : x = i
    · subst hxi
      simp [hw, hne, clearAttachment]
    · rw [if_neg hxi, if_neg hxi, if_neg hxi]
      by_cases hxp : x = pid
      · subst hxp
        simp [hpw, hxi]
      · rw [if_neg hxp, if_neg hxp, if_neg hxi]
  have honly : ∀ j wj, lookupW a j = some wj → ∀ dp ∈ wj.dps,
      dp.child = some i → j = pid ∧ dp.name = dpf.name := by
    intro j wj hlj dp hdp hch
    obtain ⟨wc, hlc, hpar', hdt⟩ := hinv j wj hlj dp hdp i hch
    rw [hw] at hlc
    injection hlc with hlc
    rw [← hlc] at hpar' hdt
    rw [hpar] at hpar'
    injection hpar' with hpar'
    obtain ⟨wc2, hlc2, hp2, hd2⟩ := hinv pid pw hpw dpf hdpfmem i hdpfchild
    rw [hw] at hlc2
    injection hlc2 with hlc2
    rw [← hlc2] at hd2
    exact ⟨hpar'.symm, by rw [← hdt, hd2]⟩
  have htrans : ∀ (j c' : Nat) (wc' : ArenaWidget) (nm' : String),
      c' ≠ i → lookupW a c' = some wc' → wc'.parentWidget = some j →
      wc'.dockedTo = nm' →
      ∃ wc'', lookupW (removeFromParent a i) c' = some wc'' ∧
        wc''.parentWidget = some j ∧ wc''.dockedTo = nm' := by
    intro j c' wc' nm' hnec hl hp hd
    rw [hlk c', if_neg hnec]
    by_cases hcp : c' = pid
    · rw [if_pos hcp]
      rw [hcp, hpw] at hl
      injection hl with hl
      refine ⟨_, rfl, ?_, ?_⟩
      · show pw.parentWidget = some j
        rw [hl]
        exact hp
      · show pw.dockedTo = nm'
        rw [hl]
        exact hd
    · rw [if_neg hcp]
      exact ⟨wc', hl, hp, hd⟩
  refine ⟨?_, by rw [hlk i, if_pos rfl], by
      rw [hlk pid, if_neg (fun h => hne h.symm), if_pos rfl], ?_⟩
  · intro j w' hlook dp' hdp' c' hchild'
    rw [hlk j] at hlook
    by_cases hji : j = i
    · rw [if_pos hji] at hlook
      injection hlook with hlook
      have hdp0 : dp' ∈ w.dps := by
        rw [← hlook] at hdp'
        exact hdp'
      obtain ⟨wc', hl', hp', hd'⟩ := hinv i w hw dp' hdp0 c' hchild'
      have hnec : c' ≠ i := by
        intro hcc
        rw [hcc, hw] at hl'
        injection hl' with hl'
        rw [← hl'] at hp'
        rw [hpar] at hp'
        injection hp' with hp'
        exact hne hp'.symm
      obtain ⟨wc'', hlo, hpo, hdo⟩ := htrans i c' wc' dp'.name hnec hl' hp' hd'
      exact ⟨wc'', hlo, by rw [hji]; exact hpo, hdo⟩
    · rw [if_neg hji] at hlook
      by_cases hjp : j = pid
      · rw [if_pos hjp] at hlook
        injection hlook with hlook
        have hdps : dp' ∈ setDPChild pw.dps dpf.name none := by
          rw [← hlook] at hdp'
          exact hdp'
        obtain ⟨dp₀, hdp₀, hdpeq⟩ := List.mem_map.mp hdps
        by_cases hname : dp₀.name = dpf.name
        · rw [if_pos hname] at hdpeq
          rw [← hdpeq] at hchild'
          exact absurd hchild' (by simp)
        · rw [if_neg hname] at hdpeq
          rw [← hdpeq] at hchild'
          obtain ⟨wc', hl', hp', hd'⟩ := hinv pid pw hpw dp₀ hdp₀ c' hchild'
          have hnec : c' ≠ i := by
            intro hcc
            exact hname (honly pid pw hpw dp₀ hdp₀ (hcc ▸ hchild')).2
          obtain ⟨wc'', hlo, hpo, hdo⟩ :=
            htrans pid c' wc' dp₀.name hnec hl' hp' hd'
          refine ⟨wc'', hlo, by rw [hjp]; exact hpo, ?_⟩
          rw [hdpeq] at hdo
          exact hdo
      · rw [if_neg hjp] at hlook
        obtain ⟨wc', hl', hp', hd'⟩ := hinv j w' hlook dp' hdp' c' hchild'
        have hnec : c' ≠ i := by
          intro hcc
          exact hjp (honly j w' hlook dp' hdp' (hcc ▸ hchild')).1
        exact htrans j c' wc' dp'.name hnec hl' hp' hd'
  · intro dp hdp hch
    obtain ⟨dp₀, hdp₀, hdpeq⟩ := List.mem_map.mp hdp
    by_cases hname : dp₀.name = dpf.name
    · rw [if_pos hname] at hdpeq
      rw [← hdpeq] at hch
      exact absurd hch (by simp)
    · rw [if_neg hname] at hdpeq
      rw [← hdpeq] at hch
      exact hname (honly pid pw hpw dp₀ hdp₀ hch).2

end Inequality

namespace Inequality

theorem keysNodup_dockingPointSetChild (a : Arena) (o : Nat) (nm : String)
    (c : Option Nat) :
    keysNodup (dockingPointSetChild a o nm c) = keysNodup a := by
  unfold dockingPointSetChild
  cases dpChildOf a o nm <;> cases c <;> simp [keysNodup_updateW]

theorem keysNodup_touchEndedDock (a : Arena) (o : Nat) (nm : String)
    (c : Nat) :
    keysNodup (touchEndedDock a o nm c) = keysNodup a := by
  unfold touchEndedDock
  rw [keysNodup_updateW, keysNodup_dockingPointSetChild]

theorem keysNodup_removeFromParent (a : Arena) (i : Nat) :
    keysNodup (removeFromParent a i) = keysNodup a := by
  unfold removeFromParent
  split
  · rfl
  · split
    · rfl
    · dsimp only
      split
      · simp [keysNodup_updateW]
      · split
        · simp [keysNodup_updateW]
        · simp [keysNodup_updateW, keysNodup_dockingPointSetChild]

/-- **C1.** After every mutating dock or undock operation — docking the
moving widget on pointer-up (`touchEnded`), committing a palette symbol
(`commitPotentialSymbol`), attaching a child during deserialization
(`_parseSubtreeObject`), and detaching via `removeFromParent` — every
docking point whose `child` is non-null has `child.parentWidget` pointing
back at the docking point's owner and `child.dockedTo` equal to the docking
point's name (`dockInvariantB`); and after a detach, the docking point's
`child` and the former child's `parentWidget` and `dockedTo` are all
cleared.  The docks assume what the controller establishes on those paths:
the target docking point is currently empty (it came from the list of empty
canvas docking points) and the docked widget is currently a root (the
moving symbol was removed from its parent on pointer-down; a potential or
deserialized child is freshly constructed). -/
theorem dock_undock_bidirectional_consistency :
    (∀ (a : Arena) (owner : Nat) (nm : String) (c : Nat) (cw : ArenaWidget),
      keysNodup a = true → dockInvariantB a = true →
      lookupW a c = some cw → cw.parentWidget = none → c ≠ owner →
      dpChildOf a owner nm = none →
      dockInvariantB (touchEndedDock a owner nm c) = true ∧
      lookupW (touchEndedDock a owner nm c) c =
        some (setAttachment owner nm cw)) ∧
    (∀ (a : Arena) (owner : Nat) (nm : String) (c : Nat) (cw : ArenaWidget),
      keysNodup a = true → dockInvariantB a = true →
      lookupW a c = some cw → cw.parentWidget = none → c ≠ owner →
      dpChildOf a owner nm = none →
      dockInvariantB (commitPotentialSymbolDock a owner nm c) = true ∧
      lookupW (commitPotentialSymbolDock a owner nm c) c =
        some (setAttachment owner nm cw)) ∧
    (∀ (a : Arena) (parent : Nat) (key : String) (c : Nat) (cw : ArenaWidget),
      keysNodup a = true → dockInvariantB a = true →
      lookupW a c = some cw → cw.parentWidget = none → c ≠ parent →
      dpChildOf a parent key = none →
      dockInvariantB (parseAttachChild a parent key c) = true ∧
      lookupW (parseAttachChild a parent key c) c =
        some (setAttachment parent key cw)) ∧
    (∀ (a : Arena) (i pid : Nat) (w pw : ArenaWidget) (dpf : ArenaDP),
      keysNodup a = true → dockInvariantB a = true →
      lookupW a i = some w → w.parentWidget = some pid → i ≠ pid →
      lookupW a pid = some pw → namesNodupB pw.dps = true →
      pw.dps.find? (fun dp => dp.child == some i) = some dpf →
      dockInvariantB (removeFromParent a i) = true ∧
      lookupW (removeFromParent a i) i =
        some { w with dockedTo := "", parentWidget := none } ∧
      lookupW (removeFromParent a i) pid =
        some { pw with dps := setDPChild pw.dps dpf.name none } ∧
      (∀ dp ∈ setDPChild pw.dps dpf.name none, dp.child ≠ some i)) := by
  refine ⟨?_, ?_, ?_, ?_⟩
  · intro a owner nm c cw hnd hB hc hroot hne hempty
    obtain ⟨hinv', hlc', -⟩ := touchEndedDock_spec a owner nm c cw
      (dockInvariantB_imp a hB) hc hroot hne hempty
    refine ⟨?_, hlc'⟩
    apply dockInvariant_imp_B
    · rw [keysNodup_touchEndedDock]
      exact hnd
    · exact hinv'
  · intro a owner nm c cw hnd hB hc hroot hne hempty
    obtain ⟨hinv', hlc', -⟩ := dock_lookup_and_invariant a owner nm c cw
      (dockInvariantB_imp a hB) hc hroot hne hempty
    refine ⟨?_, hlc'⟩
    apply dockInvariant_imp_B
    · unfold commitPotentialSymbolDock
      rw [keysNodup_dockingPointSetChild]
      exact hnd
    · exact hinv'
  · intro a parent key c cw hnd hB hc hroot hne hempty
    obtain ⟨hinv', hlc', -⟩ := dock_lookup_and_invariant a parent key c cw
      (dockInvariantB_imp a hB) hc hroot hne hempty
    refine ⟨?_, hlc'⟩
    apply dockInvariant_imp_B
    · unfold parseAttachChild
      rw [keysNodup_dockingPointSetChild]
      exact hnd
    · exact hinv'
  · intro a i pid w pw dpf hnd hB hw hpar hne hpw hnames hfind
    obtain ⟨hinv', h1, h2, h3⟩ := removeFromParent_spec a i pid w pw dpf
      (dockInvariantB_imp a hB) hw hpar hne hpw hnames hfind
    refine ⟨?_, h1, h2, h3⟩
    apply dockInvariant_imp_B
    · rw [keysNodup_removeFromParent]
      exact hnd
    · exact hinv'

/-- Witness for C1: a two-widget arena — widget 1 with an empty `right`
docking point, widget 2 a root — docked by the pointer-up path, then the
docked widget detached again by `removeFromParent`; the invariant holds at
every step and the detach clears both sides. -/
theorem dock_undock_bidirectional_consistency_witness :
    (dockInvariantB (touchEndedDock
        [(1, ⟨[], "", none, [⟨"right", ["operator"], none⟩], "Num"⟩),
          (2, ⟨["operator"], "", none, [], "Symbol"⟩)] 1 "right" 2) = true ∧
      lookupW (touchEndedDock
        [(1, ⟨[], "", none, [⟨"right", ["operator"], none⟩], "Num"⟩),
          (2, ⟨["operator"], "", none, [], "Symbol"⟩)] 1 "right" 2) 2 =
        some (setAttachment 1 "right" ⟨["operator"], "", none, [], "Symbol"⟩)) ∧
    (dockInvariantB (removeFromParent
        [(1, ⟨[], "", none, [⟨"right", ["operator"], some 2⟩], "Num"⟩),
          (2, ⟨["operator"], "right", some 1, [], "Symbol"⟩)] 2) = true ∧
      lookupW (removeFromParent
        [(1, ⟨[], "", none, [⟨"right", ["operator"], some 2⟩], "Num"⟩),
          (2, ⟨["operator"], "right", some 1, [], "Symbol"⟩)] 2) 2 =
        some ⟨["operator"], "", none, [], "Symbol"⟩) :=
  ⟨⟨(dock_undock_bidirectional_consistency.1
        [(1, ⟨[], "", none, [⟨"right", ["operator"], none⟩], "Num"⟩),
          (2, ⟨["operator"], "", none, [], "Symbol"⟩)] 1 "right" 2
        ⟨["operator"], "", none, [], "Symbol"⟩ (by decide) (by decide) (by decide)
        (by decide) (by decide) (by decide)).1,
      (dock_undock_bidirectional_consistency.1
        [(1, ⟨[], "", none, [⟨"right", ["operator"], none⟩], "Num"⟩),
          (2, ⟨["operator"], "", none, [], "Symbol"⟩)] 1 "right" 2
        ⟨["operator"], "", none, [], "Symbol"⟩ (by decide) (by decide) (by decide)
        (by decide) (by decide) (by decide)).2⟩,
    ⟨(dock_undock_bidirectional_consistency.2.2.2
        [(1, ⟨[], "", none, [⟨"right", ["operator"], some 2⟩], "Num"⟩),
          (2, ⟨["operator"], "right", some 1, [], "Symbol"⟩)] 2 1
        ⟨["operator"], "right", some 1, [], "Symbol"⟩
        ⟨[], "", none, [⟨"right", ["operator"], some 2⟩], "Num"⟩
        ⟨"right", ["operator"], some 2⟩ (by decide) (by decide) (by decide)
        (by decide) (by decide) (by decide) (by decide) (by decide)).1,
      (dock_undock_bidirectional_consistency.2.2.2
        [(1, ⟨[], "", none, [⟨"right", ["operator"], some 2⟩], "Num"⟩),
          (2, ⟨["operator"], "right", some 1, [], "Symbol"⟩)] 2 1
        ⟨["operator"], "right", some 1, [], "Symbol"⟩
        ⟨[], "", none, [⟨"right", ["operator"], some 2⟩], "Num"⟩
        ⟨"right", ["operator"], some 2⟩ (by decide) (by decide) (by decide)
        (by decide) (by decide) (by decide) (by decide) (by decide)).2.1⟩⟩

end Inequality

namespace Inequality

theorem dpsToList_mkEmptyDPs (names : List String) :
    dpsToList (mkEmptyDPs names) = names.map (fun n => (n, none)) := by
  induction names with
  | nil => rfl
  | cons n rest ih => simp [mkEmptyDPs, dpsToList, ih]

theorem dpsToList_attachChild :
    ∀ (dps : MDPs) (key : String) (c : Option WModel),
      dpsToList (attachChild dps key c) =
        (dpsToList dps).map (fun e => if e.1 = key then (e.1, c) else e)
  | .nil, _, _ => rfl
  | .emptyDP n rest, key, c => by
    by_cases hn : n = key
    · cases c <;>
        simp [attachChild, dpsToList, hn, dpsToList_attachChild rest key]
    · simp [attachChild, dpsToList, hn, dpsToList_attachChild rest key]
  | .filledDP n w rest, key, c => by
    by_cases hn : n = key
    · cases c <;>
        simp [attachChild, dpsToList, hn, dpsToList_attachChild rest key]
    · simp [attachChild, dpsToList, hn, dpsToList_attachChild rest key]

theorem childrenToList_subtreeChildren :
    ∀ (dps : MDPs),
      childrenToList (subtreeChildren dps) =
        (dpsToList dps).filterMap
          (fun e => e.2.map (fun w => (e.1, subtreeObjectW w)))
  | .nil => rfl
  | .emptyDP n rest => by
    simp [subtreeChildren, dpsToList, childrenToList,
      childrenToList_subtreeChildren rest]
  | .filledDP n w rest => by
    simp [subtreeChildren, dpsToList, childrenToList,
      childrenToList_subtreeChildren rest]

theorem childKeys_eq_map_fst :
    ∀ (c : WChildren), childKeys c = (childrenToList c).map Prod.fst
  | .nil => rfl
  | .cons k ck rest => by
    simp [childKeys, childrenToList, childKeys_eq_map_fst rest]

theorem stringContains_iff (l : List String) (k : String) :
    l.contains k = true ↔ k ∈ l := by
  induction l with
  | nil => simp
  | cons x rest ih =>
    rw [List.contains_cons, Bool.or_eq_true, ih]
    constructor
    · intro h
      rcases h with h | h
      · have h' : k = x := by simpa using h
        rw [h']
        exact List.mem_cons_self x rest
      · exact List.mem_cons_of_mem x h
    · intro h
      rcases List.mem_cons.mp h with h | h
      · exact Or.inl (by simpa using h)
      · exact Or.inr h

theorem findChildSpec_eq_none :
    ∀ (c : WChildren) (k : String), k ∉ childKeys c →
      findChildSpec c k = none
  | .nil, _, _ => rfl
  | .cons k' ck rest, k, h => by
    rw [childKeys] at h
    rw [findChildSpec, if_neg (fun (he : k' = k) => h (he ▸ List.mem_cons_self k' _)),
      findChildSpec_eq_none rest k (fun hm => h (List.mem_cons_of_mem k' hm))]

theorem findChildSpec_mem :
    ∀ (c : WChildren) (k : String) (ck : WSpec),
      findChildSpec c k = some ck → k ∈ childKeys c
  | .nil, k, ck, h => by simp [findChildSpec] at h
  | .cons k' c' rest, k, ck, h => by
    rw [findChildSpec] at h
    split at h
    next he => rw [childKeys, he]; exact List.mem_cons_self _ _
    next => exact List.mem_cons_of_mem _ (findChildSpec_mem rest k ck h)

theorem mem_findChildSpec :
    ∀ (c : WChildren) (k : String), k ∈ childKeys c →
      ∃ ck, findChildSpec c k = some ck
  | .nil, k, h => by simp [childKeys] at h
  | .cons k' c' rest, k, h => by
    rw [findChildSpec]
    by_cases he : k' = k
    · exact ⟨c', by rw [if_pos he]⟩
    · rw [if_neg he]
      rw [childKeys] at h
      rcases List.mem_cons.mp h with h | h
      · exact absurd h.symm he
      · exact mem_findChildSpec rest k h

theorem validChildren_find (m : String) :
    ∀ (c : WChildren) (k : String) (ck : WSpec),
      validChildren m c = true → findChildSpec c k = some ck →
      validSpec m ck = true
  | .nil, k, ck, _, h => by simp [findChildSpec] at h
  | .cons k' c' rest, k, ck, hv, h => by
    rw [validChildren, Bool.and_eq_true] at hv
    rw [findChildSpec] at h
    split at h
    next => injection h with h; rw [← h]; exact hv.1
    next => exact validChildren_find m rest k ck hv.2 h

theorem specSize_of_find :
    ∀ (c : WChildren) (k : String) (ck : WSpec),
      findChildSpec c k = some ck → specSize ck ≤ childrenSize c
  | .nil, k, ck, h => by simp [findChildSpec] at h
  | .cons k' c' rest, k, ck, h => by
    rw [findChildSpec] at h
    rw [childrenSize]
    split at h
    next => injection h with h; rw [← h]; omega
    next => have := specSize_of_find rest k ck h; omega

theorem dpsToList_parseChildrenAttach (m : String) :
    ∀ (children : WChildren) (dps : MDPs),
      keysDistinct children = true →
      dpsToList (parseChildrenAttach m children dps) =
        (dpsToList dps).map (fun e =>
          match findChildSpec children e.1 with
          | some ck => (e.1, parseSubtreeObjectW m ck)
          | none => e)
  | .nil, dps, _ => by
    rw [parseChildrenAttach]
    have hfun : (fun (e : String × Option WModel) =>
        match findChildSpec WChildren.nil e.1 with
        | some ck => (e.1, parseSubtreeObjectW m ck)
        | none => e) = id := funext fun e => rfl
    rw [hfun, List.map_id]
  | .cons key child rest, dps, hdist => by
    rw [keysDistinct, Bool.and_eq_true, Bool.not_eq_true'] at hdist
    rw [parseChildrenAttach, dpsToList_parseChildrenAttach m rest _ hdist.2,
      dpsToList_attachChild, List.map_map]
    apply List.map_congr_left
    intro e _
    by_cases hk : e.1 = key
    · have hnone : findChildSpec rest key = none := by
        apply findChildSpec_eq_none
        intro hmem
        rw [(stringContains_iff (childKeys rest) key).mpr hmem] at hdist
        exact Bool.noConfusion hdist.1
      simp only [Function.comp_apply, if_pos hk, hk]
      rw [findChildSpec, if_pos rfl]
      simp [hnone]
    · simp only [Function.comp_apply, if_neg hk]
      rw [findChildSpec, if_neg (fun he => hk he.symm)]

theorem equivChildren_of_forall :
    ∀ (out t : WChildren),
      (∀ p ∈ childrenToList out,
        ∃ ct, findChildSpec t p.1 = some ct ∧ equivSpec p.2 ct = true) →
      equivChildren out t = true
  | .nil, _, _ => rfl
  | .cons k cs rest, t, h => by
    rw [equivChildren, Bool.and_eq_true]
    obtain ⟨ct, hf, he⟩ := h (k, cs) (by simp [childrenToList])
    constructor
    · rw [hf]
      exact he
    · exact equivChildren_of_forall rest t
        (fun p hp => h p (by simp [childrenToList, hp]))

theorem construct_typeAsString (t : String) (props : PBag) (f : WFields)
    (h : construct t props = some f) : typeAsStringOf f = t := by
  unfold construct at h
  split at h <;>
    first
      | exact Option.noConfusion h
      | (injection h with h; rw [← h]; rfl)

end Inequality

namespace Inequality

theorem dpsToList_parse_empty (m : String) (children : WChildren)
    (names : List String) (hdist : keysDistinct children = true) :
    dpsToList (parseChildrenAttach m children (mkEmptyDPs names)) =
      names.map (fun nm => (nm, occOf m children nm)) := by
  rw [dpsToList_parseChildrenAttach m children _ hdist, dpsToList_mkEmptyDPs,
    List.map_map]
  apply List.map_congr_left
  intro nm _
  simp only [Function.comp_apply]
  cases h : findChildSpec children nm <;> simp [occOf, h]

theorem childrenToList_roundtrip (m : String) (children : WChildren)
    (names : List String) (hdist : keysDistinct children = true) :
    childrenToList (subtreeChildren
        (parseChildrenAttach m children (mkEmptyDPs names))) =
      names.filterMap (fun nm =>
        (occOf m children nm).map (fun w => (nm, subtreeObjectW w))) := by
  rw [childrenToList_subtreeChildren,
    dpsToList_parse_empty m children names hdist, List.filterMap_map]
  rfl

theorem parse_roundtrip_aux (m : String) :
    ∀ (n : Nat) (s : WSpec), specSize s ≤ n → validSpec m s = true →
      ∃ w, parseSubtreeObjectW m s = some w ∧
        equivSpec (subtreeObjectW w) s = true := by
  intro n
  induction n with
  | zero =>
    intro s hsize _
    exfalso
    cases s with
    | mk t props children => rw [specSize] at hsize; omega
  | succ n ih =>
    rintro ⟨t, props, children⟩ hsize hvalid
    rw [specSize] at hsize
    have hszc : childrenSize children ≤ n := by omega
    rw [validSpec] at hvalid
    cases hcon : construct t (props.getD []) with
    | none => rw [hcon] at hvalid; exact absurd hvalid (by simp)
    | some f =>
      rw [hcon] at hvalid
      simp only [Bool.and_eq_true, decide_eq_true_eq] at hvalid
      obtain ⟨⟨⟨hprops, hdist⟩, hamong⟩, hvc⟩ := hvalid
      refine ⟨.mk f (parseChildrenAttach m children
        (mkEmptyDPs (dockingPointNamesOf f m))), ?_, ?_⟩
      · rw [parseSubtreeObjectW, hcon]
      · rw [subtreeObjectW, equivSpec]
        simp only [Bool.and_eq_true, decide_eq_true_eq]
        have hocc : ∀ k ∈ childKeys children,
            ∃ ck cw, findChildSpec children k = some ck ∧
              occOf m children k = some cw ∧
              equivSpec (subtreeObjectW cw) ck = true := by
          intro k hk
          obtain ⟨ck, hfc⟩ := mem_findChildSpec children k hk
          have hvck : validSpec m ck = true :=
            validChildren_find m children k ck hvc hfc
          have hsz : specSize ck ≤ n :=
            le_trans (specSize_of_find children k ck hfc) hszc
          obtain ⟨cw, hparse, heq⟩ := ih ck hsz hvck
          refine ⟨ck, cw, hfc, ?_, heq⟩
          rw [occOf, hfc]
          exact hparse
        have hmem : ∀ p, p ∈ childrenToList (subtreeChildren
              (parseChildrenAttach m children
                (mkEmptyDPs (dockingPointNamesOf f m)))) ↔
            ∃ nm ∈ dockingPointNamesOf f m, ∃ w,
              occOf m children nm = some w ∧ p = (nm, subtreeObjectW w) := by
          intro p
          rw [childrenToList_roundtrip m children _ hdist, List.mem_filterMap]
          constructor
          · rintro ⟨nm, hnm, hF⟩
            rcases Option.map_eq_some'.mp hF with ⟨w, hw, hpw⟩
            exact ⟨nm, hnm, w, hw, hpw.symm⟩
          · rintro ⟨nm, hnm, w, hw, hpw⟩
            refine ⟨nm, hnm, ?_⟩
            rw [hw, hpw]
            rfl
        refine ⟨⟨⟨⟨construct_typeAsString t _ f hcon, hprops.symm⟩, ?_⟩, ?_⟩, ?_⟩
        · rw [keysSubset, List.all_eq_true]
          intro k hk
          rw [childKeys_eq_map_fst] at hk
          rcases List.mem_map.mp hk with ⟨p, hp, hpk⟩
          rcases (hmem p).mp hp with ⟨nm, _, w, hw, hpw⟩
          rw [occOf] at hw
          cases hfc : findChildSpec children nm with
          | none => rw [hfc] at hw; exact Option.noConfusion hw
          | some ck =>
            have hnmk : nm = k := by rw [hpw] at hpk; exact hpk
            rw [stringContains_iff]
            exact hnmk ▸ findChildSpec_mem children nm ck hfc
        · rw [keysSubset, List.all_eq_true]
          intro k hk
          obtain ⟨ck, cw, hfc, hoc, _⟩ := hocc k hk
          have hknames : k ∈ dockingPointNamesOf f m := by
            rw [keysAmong, List.all_eq_true] at hamong
            exact (stringContains_iff _ _).mp (hamong k hk)
          rw [stringContains_iff, childKeys_eq_map_fst]
          exact List.mem_map.mpr ⟨(k, subtreeObjectW cw),
            (hmem _).mpr ⟨k, hknames, cw, hoc, rfl⟩, rfl⟩
        · apply equivChildren_of_forall
          intro p hp
          rcases (hmem p).mp hp with ⟨nm, _, w, hw, hpw⟩
          have hw' := hw
          rw [occOf] at hw'
          cases hfc : findChildSpec children nm with
          | none => rw [hfc] at hw'; exact Option.noConfusion hw'
          | some ck =>
            rw [hfc] at hw'
            obtain ⟨ck', cw, hfc', hoc, heq⟩ :=
              hocc nm (findChildSpec_mem children nm ck hfc)
            rw [hfc] at hfc'
            injection hfc' with hck
            rw [hw] at hoc
            injection hoc with hcw
            refine ⟨ck, ?_, ?_⟩
            · rw [hpw]
              exact hfc
            · rw [hpw]
              show equivSpec (subtreeObjectW w) ck = true
              rw [hck, hcw]
              exact heq

/-- C2 counterexample: the claim's own validity premise — a known type tag
and children keyed by docking-point names — does not suffice for the
round-trip to preserve the property bag.  The spec
`{type: "Num", properties: {significand: "2", exponent: "3"}}` is valid in
the claim's sense, but the `Num` constructor stores only the significand, so
serializing the parsed widget yields `{significand: "2"}`, a different
per-type property bag. -/
theorem roundtrip_counterexample :
    validSpecW "math" numExponentSpec = true ∧
    (parseSubtreeObjectW "math" numExponentSpec).map
      (fun w => equivSpec (subtreeObjectW w) numExponentSpec) = some false :=
  by decide

/-- C2 (amended): for every tree built from a valid `WidgetSpec` — known
type tags, a property bag equal to the canonical bag its widget type
serializes (`properties()`), and children keyed by distinct docking-point
names the constructed widget possesses, recursively — deserializing with
`_parseSubtreeObject` succeeds and `subtreeObject` of the result is an
equivalent tree: the same type tag at every node, the same per-type
property bag, and the same set of occupied docking-point names,
recursively. -/
theorem roundtrip_equiv (m : String) (s : WSpec)
    (hv : validSpec m s = true) :
    ∃ w, parseSubtreeObjectW m s = some w ∧
      equivSpec (subtreeObjectW w) s = true :=
  parse_roundtrip_aux m (specSize s) s le_rfl hv

theorem roundtrip_equiv_witness :
    validSpec "math" twoXSpec = true ∧
    ∃ w, parseSubtreeObjectW "math" twoXSpec = some w ∧
      equivSpec (subtreeObjectW w) twoXSpec = true :=
  ⟨by decide, roundtrip_equiv "math" twoXSpec (by decide)⟩

end Inequality

namespace Inequality

theorem construct_unknown (t : String) (props : PBag)
    (h : knownTypeTags.contains t = false) : construct t props = none := by
  unfold construct
  split <;> first | rfl | exact absurd h (by decide)

/-- C6: deserializing a `WidgetSpec` whose type tag is not one of the known
widget types creates no widget and leaves the forest of root widgets
unchanged — the switch's `default` branch produces nothing and
`parseSubtreeObject` appends nothing (all functions are total, so no
exception can arise). -/
theorem unknown_type_skipped (m t : String) (props : Option PBag)
    (children : WChildren) (symbols : List WModel)
    (h : knownTypeTags.contains t = false) :
    parseSubtreeObjectW m (.mk t props children) = none ∧
    parseSubtreeObjectForest m symbols (.mk t props children) = symbols := by
  have hp : parseSubtreeObjectW m (.mk t props children) = none := by
    rw [parseSubtreeObjectW, construct_unknown t _ h]
  exact ⟨hp, by rw [parseSubtreeObjectForest, hp]⟩

theorem unknown_type_skipped_witness :
    knownTypeTags.contains "Bogus" = false ∧
    (parseSubtreeObjectW "math" (.mk "Bogus" (some []) .nil) = none ∧
      parseSubtreeObjectForest "math" [] (.mk "Bogus" (some []) .nil) = []) :=
  ⟨by decide,
    unknown_type_skipped "math" "Bogus" (some []) .nil [] (by decide)⟩

/-- C7 counterexample: `Num.generateDockingPoints` creates the `right` and
`superscript` (exponent) points unconditionally, so a `Num` widget still has
its exponent slot when the editor is constructed in boolean-logic or
chemistry/nuclear mode, contradicting the claim that the slot exists only in
general-math mode. -/
theorem num_superscript_counterexample :
    (dockingPointNamesOf (.numF (.str "2")) "logic").contains "superscript"
        = true ∧
      (dockingPointNamesOf (.numF (.str "2")) "nuclear").contains
        "superscript" = true := by decide

/-- C7 (amended): a `Num` widget's docking points are `right` and the
exponent point `superscript` in every editor mode;
`Num.generateDockingPoints` does not consult the mode (unlike `Symbol`,
which omits its script points in logic mode). -/
theorem num_dockingPoints_all_modes (mode : String) (s : PVal) :
    dockingPointNamesOf (.numF s) mode = ["right", "superscript"] := rfl

/-- C8 counterexample: rendering a fresh letter-symbol `x` in the
chemistry-markup format yields the empty string, not `"x"` —
`Symbol.formatExpressionAs` has no `mhchem` branch — and the
presentation-markup render is the element `<mi>x</mi>`, not the bare
letter. -/
theorem symbol_render_counterexample :
    (jsTrim (formatW "mhchem" freshX) = "" ∧
      jsTrim (formatW "mhchem" freshX) ≠ "x") ∧
    jsTrim (formatW "mathml" freshX) ≠ "x" := by decide

/-- C8 (amended): a freshly constructed letter-symbol `x` with nothing
docked renders (after trimming) as `"x"` in the display (latex) and
evaluable (python) formats, as the empty string in the chemistry-markup
(mhchem) format, and as `<mi>x</mi>` in the presentation-markup (mathml)
format. -/
theorem symbol_render_fresh_x :
    jsTrim (formatW "latex" freshX) = "x" ∧
    jsTrim (formatW "python" freshX) = "x" ∧
    jsTrim (formatW "mhchem" freshX) = "" ∧
    jsTrim (formatW "mathml" freshX) = "<mi>x</mi>" := by decide

/-- C9: the numeric literal `2` with the letter-symbol `x` docked at its
`right` point renders as `2*x` in the evaluable (python) format — an
explicit multiplication operator is inserted — and as `2 x` in the display
(latex) format — juxtaposition with a space. -/
theorem num_symbol_juxtaposition :
    formatW "python" twoTimesX = "2*x" ∧
    formatW "latex" twoTimesX = "2 x" := by decide

end Inequality

namespace Inequality

theorem lookupW_append_fresh (a : Arena) (bid : Nat) (w : ArenaWidget)
    (h : lookupW a bid = none) (x : Nat) :
    lookupW (a ++ [(bid, w)]) x = if x = bid then some w else lookupW a x := by
  induction a with
  | nil =>
    by_cases hx : x = bid
    · subst hx
      simp [lookupW]
    · simp [lookupW, hx, Ne.symm hx]
  | cons p rest ih =>
    rw [lookupW] at h
    by_cases hpb : p.1 = bid
    · rw [if_pos hpb] at h
      exact Option.noConfusion h
    · rw [if_neg hpb] at h
      rw [List.cons_append, lookupW, ih h]
      by_cases hpx : p.1 = x
      · have hxb : ¬ x = bid := fun hh => hpb (by rw [hpx, hh])
        rw [if_pos hpx, if_neg hxb, lookupW, if_pos hpx]
      · rw [if_neg hpx]
        by_cases hxb : x = bid
        · rw [if_pos hxb, if_pos hxb]
        · rw [if_neg hxb, if_neg hxb, lookupW, if_neg hpx]

theorem find?_setDPChild_same :
    ∀ (dps : List ArenaDP) (nm : String) (c : Option Nat),
      (setDPChild dps nm c).find? (fun dp => dp.name == nm) =
        (dps.find? (fun dp => dp.name == nm)).map
          (fun dp => { dp with child := c })
  | [], _, _ => rfl
  | dp :: rest, nm, c => by
    simp only [setDPChild, List.map_cons]
    by_cases h : dp.name = nm
    · rw [if_pos h, List.find?_cons_of_pos _ (by simp [h]),
        List.find?_cons_of_pos _ (by simp [h]), Option.map_some']
    · rw [if_neg h, List.find?_cons_of_neg _ (by simp [h]),
        List.find?_cons_of_neg _ (by simp [h])]
      exact find?_setDPChild_same rest nm c

theorem find?_setDPChild_ne (dps : List ArenaDP) (nm nm' : String)
    (c : Option Nat) (h : nm' ≠ nm) :
    (setDPChild dps nm c).find? (fun dp => dp.name == nm') =
      dps.find? (fun dp => dp.name == nm') := by
  induction dps with
  | nil => rfl
  | cons dp rest ih =>
    simp only [setDPChild, List.map_cons] at ih ⊢
    by_cases hd : dp.name = nm
    · have hb : (dp.name == nm') = false := by
        simp [hd]
        exact fun hh => h hh.symm
      rw [if_pos hd, List.find?_cons, List.find?_cons]
      show (match (dp.name == nm') with
        | true => some { dp with child := c }
        | false => List.find? (fun (e : ArenaDP) => e.name == nm')
            (List.map (fun (e : ArenaDP) =>
              if e.name = nm then { e with child := c } else e) rest)) = _
      rw [hb, ih]
    · rw [if_neg hd, List.find?_cons, List.find?_cons]
      cases hb : (dp.name == nm')
      · rw [ih]
      · rfl

end Inequality

namespace Inequality

theorem dpChildOf_of_lookup (a : Arena) (o : Nat) (w : ArenaWidget)
    (nm : String) (h : lookupW a o = some w) :
    dpChildOf a o nm =
      (match w.dps.find? (fun dp => dp.name == nm) with
        | none => none
        | some dp => dp.child) := by
  unfold dpChildOf
  rw [h]

theorem find?_freshBrackets_argument (mode : String) :
    (freshBrackets mode).dps.find? (fun dp => dp.name == "argument") =
      some ⟨"argument", ["symbol", "differential"], none⟩ :=
  List.find?_cons_of_pos _ (by decide)

theorem find?_freshBrackets_right (mode : String) :
    (freshBrackets mode).dps.find? (fun dp => dp.name == "right") =
      some ⟨"right", ["operator_brackets"], none⟩ := by
  have h1 : (freshBrackets mode).dps =
      ⟨"argument", ["symbol", "differential"], none⟩ ::
        ⟨"right", ["operator_brackets"], none⟩ ::
        (if mode ≠ "logic" then
          [⟨"superscript", ["exponent"], none⟩,
            ⟨"subscript",
              (if mode = "chemistry" then ["subscript"]
                else ["symbol_subscript", "subscript_maths"]), none⟩]
          else []) := rfl
  rw [h1, List.find?_cons_of_neg _ (by decide),
    List.find?_cons_of_pos _ (by decide)]

theorem lookupW_dock_empty_some (a : Arena) (o : Nat) (nm : String) (cw : Nat)
    (hprev : dpChildOf a o nm = none) (hco : cw ≠ o) (x : Nat) :
    lookupW (dockingPointSetChild a o nm (some cw)) x =
      if x = cw then (lookupW a x).map (setAttachment o nm)
      else if x = o then
        (lookupW a x).map
          (fun w => { w with dps := setDPChild w.dps nm (some cw) })
      else lookupW a x := by
  unfold dockingPointSetChild
  simp only [hprev]
  rw [lookupW_updateW, lookupW_updateW]
  by_cases hxc : x = cw
  · rw [if_pos hxc, if_pos hxc, if_neg (fun h => hco (hxc.symm.trans h))]
  · rw [if_neg hxc, if_neg hxc]

theorem lookupW_dock_empty_none (a : Arena) (o : Nat) (nm : String)
    (hprev : dpChildOf a o nm = none) (x : Nat) :
    lookupW (dockingPointSetChild a o nm none) x =
      if x = o then
        (lookupW a x).map (fun w => { w with dps := setDPChild w.dps nm none })
      else lookupW a x := by
  unfold dockingPointSetChild
  simp only [hprev]
  rw [lookupW_updateW]

theorem lookupW_dock_full_some (a : Arena) (o old : Nat) (nm : String)
    (cw : Nat) (hprev : dpChildOf a o nm = some old) (hoo : old ≠ o)
    (h1 : cw ≠ o) (h2 : cw ≠ old) (x : Nat) :
    lookupW (dockingPointSetChild a o nm (some cw)) x =
      if x = cw then (lookupW a x).map (setAttachment o nm)
      else if x = o then
        (lookupW a x).map
          (fun w => { w with dps := setDPChild w.dps nm (some cw) })
      else if x = old then (lookupW a x).map clearAttachment
      else lookupW a x := by
  unfold dockingPointSetChild
  simp only [hprev]
  rw [lookupW_updateW, lookupW_updateW, lookupW_updateW]
  by_cases hxc : x = cw
  · rw [if_pos hxc, if_pos hxc, if_neg (fun h => h1 (hxc.symm.trans h)),
      if_neg (fun h => h2 (hxc.symm.trans h))]
  · rw [if_neg hxc, if_neg hxc]
    by_cases hxo : x = o
    · rw [if_pos hxo, if_pos hxo, if_neg (fun h => hoo (h.symm.trans hxo))]
    · rw [if_neg hxo, if_neg hxo]

theorem lookupW_dock_full_none (a : Arena) (o old : Nat) (nm : String)
    (hprev : dpChildOf a o nm = some old) (hoo : old ≠ o) (x : Nat) :
    lookupW (dockingPointSetChild a o nm none) x =
      if x = o then
        (lookupW a x).map (fun w => { w with dps := setDPChild w.dps nm none })
      else if x = old then (lookupW a x).map clearAttachment
      else lookupW a x := by
  unfold dockingPointSetChild
  simp only [hprev]
  rw [lookupW_updateW, lookupW_updateW]
  by_cases hxo : x = o
  · rw [if_pos hxo, if_pos hxo, if_neg (fun h => hoo (h.symm.trans hxo))]
  · rw [if_neg hxo, if_neg hxo]

end Inequality

namespace Inequality

theorem fractionShakeRewrite_no_trigger (a : Arena) (fid bid : Nat)
    (mode : String) (frac : ArenaWidget) (hfr : lookupW a fid = some frac)
    (h : ∀ nid np, frac.parentWidget = some nid → lookupW a nid = some np →
      ¬(np.wtype = "Num" ∧ dpChildOf a nid "right" = some fid)) :
    fractionShakeRewrite a fid bid mode = a := by
  unfold fractionShakeRewrite
  simp only [hfr]
  cases hp : frac.parentWidget with
  | none => rfl
  | some nid =>
    dsimp only
    cases hl : lookupW a nid with
    | none => rfl
    | some np =>
      dsimp only
      rw [if_neg (h nid np hp hl)]

/-- C4: during layout, when a `Fraction` occupies the `right` docking point
of a `Num`, `Fraction._shakeIt` rewrites the tree in place — the `Num`'s
`right` slot receives the fresh round `Brackets`, the fraction becomes the
brackets' `argument` child, the fraction's former `right` child moves to the
brackets' `right` slot and the fraction's `right` is cleared — and the
result no longer matches the trigger (the fraction's parent is now the
`Brackets`, not the `Num`), so a further layout pass leaves the structure
fixed. -/
theorem fraction_layout_rewrite (a : Arena) (fid bid nid : Nat)
    (frac np : ArenaWidget) (mode : String)
    (hfr : lookupW a fid = some frac)
    (hfty : frac.wtype = "Fraction")
    (hpar : frac.parentWidget = some nid)
    (hnp : lookupW a nid = some np)
    (hty : np.wtype = "Num")
    (hch : dpChildOf a nid "right" = some fid)
    (hbid : lookupW a bid = none)
    (hok : rcFreshOk a fid bid nid = true) :
    dpChildOf (fractionShakeRewrite a fid bid mode) nid "right" = some bid ∧
    (lookupW (fractionShakeRewrite a fid bid mode) bid).map ArenaWidget.wtype
      = some "Brackets" ∧
    dpChildOf (fractionShakeRewrite a fid bid mode) bid "argument"
      = some fid ∧
    (lookupW (fractionShakeRewrite a fid bid mode) fid).map
      ArenaWidget.parentWidget = some (some bid) ∧
    (lookupW (fractionShakeRewrite a fid bid mode) fid).map
      ArenaWidget.dockedTo = some "argument" ∧
    dpChildOf (fractionShakeRewrite a fid bid mode) bid "right" =
      dpChildOf a fid "right" ∧
    dpChildOf (fractionShakeRewrite a fid bid mode) fid "right" = none ∧
    (∀ bid2, fractionShakeRewrite (fractionShakeRewrite a fid bid mode)
      fid bid2 mode = fractionShakeRewrite a fid bid mode) := by
  have hnb : nid ≠ bid := fun h => by
    rw [h, hbid] at hnp
    exact Option.noConfusion hnp
  have hfb : fid ≠ bid := fun h => by
    rw [h, hbid] at hfr
    exact Option.noConfusion hfr
  have hfn : fid ≠ nid := by
    intro h
    rw [h, hnp] at hfr
    injection hfr with hfr
    rw [hfr, hfty] at hty
    exact absurd hty (by decide)
  have hL0 : ∀ x, lookupW (a ++ [(bid, freshBrackets mode)]) x =
      if x = bid then some (freshBrackets mode) else lookupW a x :=
    lookupW_append_fresh a bid (freshBrackets mode) hbid
  have hnid0 : lookupW (a ++ [(bid, freshBrackets mode)]) nid = some np := by
    rw [hL0 nid, if_neg hnb]
    exact hnp
  have hch0 : dpChildOf (a ++ [(bid, freshBrackets mode)]) nid "right"
      = some fid := by
    rw [dpChildOf_of_lookup _ nid np "right" hnid0]
    rw [dpChildOf_of_lookup a nid np "right" hnp] at hch
    exact hch
  have hL1 : ∀ x, lookupW (dockingPointSetChild
        (a ++ [(bid, freshBrackets mode)]) nid "right" (some bid)) x =
      if x = bid then some (setAttachment nid "right" (freshBrackets mode))
      else if x = nid then
        some { np with dps := setDPChild np.dps "right" (some bid) }
      else if x = fid then some (clearAttachment frac)
      else lookupW a x := by
    intro x
    rw [lookupW_dock_full_some _ nid fid "right" bid hch0 hfn
      (Ne.symm hnb) (Ne.symm hfb) x, hL0 x]
    by_cases hxb : x = bid
    · simp [hxb, Ne.symm hnb, Ne.symm hfb]
    · by_cases hxn : x = nid
      · simp [hxb, hxn, hnb, hnp]
      · by_cases hxf : x = fid
        · simp [hxb, hxn, hxf, hfb, hfr, hfn]
        · simp [hxb, hxn, hxf]
  have hbid1 : lookupW (dockingPointSetChild
        (a ++ [(bid, freshBrackets mode)]) nid "right" (some bid)) bid =
      some (setAttachment nid "right" (freshBrackets mode)) := by
    rw [hL1 bid, if_pos rfl]
  have hch1 : dpChildOf (dockingPointSetChild
        (a ++ [(bid, freshBrackets mode)]) nid "right" (some bid)) bid
        "argument" = none := by
    rw [dpChildOf_of_lookup _ bid
      (setAttachment nid "right" (freshBrackets mode)) "argument" hbid1]
    show (match (freshBrackets mode).dps.find?
        (fun dp => dp.name == "argument") with
      | none => none
      | some dp => dp.child) = none
    rw [find?_freshBrackets_argument]
  have hL2 : ∀ x, lookupW (dockingPointSetChild (dockingPointSetChild
        (a ++ [(bid, freshBrackets mode)]) nid "right" (some bid)) bid
        "argument" (some fid)) x =
      if x = fid then
        some (setAttachment bid "argument" (clearAttachment frac))
      else if x = bid then
        some { setAttachment nid "right" (freshBrackets mode) with
          dps := setDPChild (freshBrackets mode).dps "argument" (some fid) }
      else if x = nid then
        some { np with dps := setDPChild np.dps "right" (some bid) }
      else lookupW a x := by
    intro x
    rw [lookupW_dock_empty_some _ bid "argument" fid hch1 hfb x, hL1 x]
    by_cases hxf : x = fid
    · simp [hxf, hfb, hfn]
    · by_cases hxb : x = bid
      · simp [hxf, hxb, Ne.symm hfb, Ne.symm hnb, setAttachment]
      · by_cases hxn : x = nid
        · simp [hxf, hxb, hxn, Ne.symm hfn, hnb]
        · simp [hxf, hxb, hxn]
  have hfid2 : lookupW (dockingPointSetChild (dockingPointSetChild
        (a ++ [(bid, freshBrackets mode)]) nid "right" (some bid)) bid
        "argument" (some fid)) fid =
      some (setAttachment bid "argument" (clearAttachment frac)) := by
    rw [hL2 fid, if_pos rfl]
  have hrc2 : dpChildOf (dockingPointSetChild (dockingPointSetChild
        (a ++ [(bid, freshBrackets mode)]) nid "right" (some bid)) bid
        "argument" (some fid)) fid "right" = dpChildOf a fid "right" := by
    rw [dpChildOf_of_lookup _ fid
      (setAttachment bid "argument" (clearAttachment frac)) "right" hfid2]
    show (match frac.dps.find? (fun dp => dp.name == "right") with
      | none => none
      | some dp => dp.child) = dpChildOf a fid "right"
    rw [dpChildOf_of_lookup a fid frac "right" hfr]
  have hbid2 : lookupW (dockingPointSetChild (dockingPointSetChild
        (a ++ [(bid, freshBrackets mode)]) nid "right" (some bid)) bid
        "argument" (some fid)) bid =
      some { setAttachment nid "right" (freshBrackets mode) with
        dps := setDPChild (freshBrackets mode).dps "argument" (some fid) } := by
    rw [hL2 bid, if_neg (Ne.symm hfb), if_pos rfl]
  have hch2 : dpChildOf (dockingPointSetChild (dockingPointSetChild
        (a ++ [(bid, freshBrackets mode)]) nid "right" (some bid)) bid
        "argument" (some fid)) bid "right" = none := by
    rw [dpChildOf_of_lookup _ bid _ "right" hbid2]
    show (match (setDPChild (freshBrackets mode).dps "argument"
        (some fid)).find? (fun dp => dp.name == "right") with
      | none => none
      | some dp => dp.child) = none
    rw [find?_setDPChild_ne _ _ _ _
      (by decide : ("right" : String) ≠ "argument"), find?_freshBrackets_right]
  have hunf : fractionShakeRewrite a fid bid mode =
      dockingPointSetChild (dockingPointSetChild (dockingPointSetChild
        (dockingPointSetChild (a ++ [(bid, freshBrackets mode)]) nid "right"
          (some bid)) bid "argument" (some fid)) bid "right"
        (dpChildOf (dockingPointSetChild (dockingPointSetChild
          (a ++ [(bid, freshBrackets mode)]) nid "right" (some bid)) bid
          "argument" (some fid)) fid "right")) fid "right" none := by
    unfold fractionShakeRewrite
    simp only [hfr, hpar, hnp]
    rw [if_pos ⟨hty, hch⟩]
  rw [hrc2] at hunf
  have main : lookupW (fractionShakeRewrite a fid bid mode) fid =
      some { frac with
        dockedTo := "argument",
        parentWidget := some bid,
        dps := setDPChild frac.dps "right" none } ∧
      lookupW (fractionShakeRewrite a fid bid mode) bid =
        some { freshBrackets mode with
          dockedTo := "right",
          parentWidget := some nid,
          dps := setDPChild (setDPChild (freshBrackets mode).dps "argument"
            (some fid)) "right" (dpChildOf a fid "right") } ∧
      lookupW (fractionShakeRewrite a fid bid mode) nid =
        some { np with dps := setDPChild np.dps "right" (some bid) } := by
    cases hrco : dpChildOf a fid "right" with
    | none =>
      rw [hrco] at hunf
      have hL3 : ∀ x, lookupW (dockingPointSetChild (dockingPointSetChild
            (dockingPointSetChild (a ++ [(bid, freshBrackets mode)]) nid
              "right" (some bid)) bid "argument" (some fid)) bid "right"
            none) x =
          if x = bid then
            (lookupW (dockingPointSetChild (dockingPointSetChild
              (a ++ [(bid, freshBrackets mode)]) nid "right" (some bid)) bid
              "argument" (some fid)) x).map
              (fun w => { w with dps := setDPChild w.dps "right" none })
          else lookupW (dockingPointSetChild (dockingPointSetChild
            (a ++ [(bid, freshBrackets mode)]) nid "right" (some bid)) bid
            "argument" (some fid)) x :=
        lookupW_dock_empty_none _ bid "right" hch2
      have hfid3 : lookupW (dockingPointSetChild (dockingPointSetChild
            (dockingPointSetChild (a ++ [(bid, freshBrackets mode)]) nid
              "right" (some bid)) bid "argument" (some fid)) bid "right"
            none) fid =
          some (setAttachment bid "argument" (clearAttachment frac)) := by
        rw [hL3 fid, if_neg hfb]
        exact hfid2
      have hch3 : dpChildOf (dockingPointSetChild (dockingPointSetChild
            (dockingPointSetChild (a ++ [(bid, freshBrackets mode)]) nid
              "right" (some bid)) bid "argument" (some fid)) bid "right"
            none) fid "right" = none := by
        rw [dpChildOf_of_lookup _ fid _ "right" hfid3]
        show (match frac.dps.find? (fun dp => dp.name == "right") with
          | none => none
          | some dp => dp.child) = none
        rw [dpChildOf_of_lookup a fid frac "right" hfr] at hrco
        exact hrco
      have hL4 : ∀ x, lookupW (fractionShakeRewrite a fid bid mode) x =
          if x = fid then
            (lookupW (dockingPointSetChild (dockingPointSetChild
              (dockingPointSetChild (a ++ [(bid, freshBrackets mode)]) nid
                "right" (some bid)) bid "argument" (some fid)) bid "right"
              none) x).map
              (fun w => { w with dps := setDPChild w.dps "right" none })
          else lookupW (dockingPointSetChild (dockingPointSetChild
            (dockingPointSetChild (a ++ [(bid, freshBrackets mode)]) nid
              "right" (some bid)) bid "argument" (some fid)) bid "right"
            none) x := by
        intro x
        rw [hunf]
        exact lookupW_dock_empty_none _ fid "right" hch3 x
      refine ⟨?_, ?_, ?_⟩
      · rw [hL4 fid, if_pos rfl, hL3 fid, if_neg hfb, hfid2]
        rfl
      · rw [hL4 bid, if_neg (Ne.symm hfb), hL3 bid, if_pos rfl, hbid2]
        rfl
      · rw [hL4 nid, if_neg (Ne.symm hfn), hL3 nid, if_neg hnb, hL2 nid,
          if_neg (Ne.symm hfn), if_neg hnb, if_pos rfl]
    | some rid =>
      unfold rcFreshOk at hok
      simp only [hrco, Bool.and_eq_true, bne_iff_ne] at hok
      obtain ⟨⟨hrf, hrb⟩, hrn⟩ := hok
      rw [hrco] at hunf
      have hL3 : ∀ x, lookupW (dockingPointSetChild (dockingPointSetChild
            (dockingPointSetChild (a ++ [(bid, freshBrackets mode)]) nid
              "right" (some bid)) bid "argument" (some fid)) bid "right"
            (some rid)) x =
          if x = rid then
            (lookupW (dockingPointSetChild (dockingPointSetChild
              (a ++ [(bid, freshBrackets mode)]) nid "right" (some bid)) bid
              "argument" (some fid)) x).map (setAttachment bid "right")
          else if x = bid then
            (lookupW (dockingPointSetChild (dockingPointSetChild
              (a ++ [(bid, freshBrackets mode)]) nid "right" (some bid)) bid
              "argument" (some fid)) x).map
              (fun w => { w with dps := setDPChild w.dps "right" (some rid) })
          else lookupW (dockingPointSetChild (dockingPointSetChild
            (a ++ [(bid, freshBrackets mode)]) nid "right" (some bid)) bid
            "argument" (some fid)) x :=
        fun x => lookupW_dock_empty_some _ bid "right" rid hch2 hrb x
      have hfid3 : lookupW (dockingPointSetChild (dockingPointSetChild
            (dockingPointSetChild (a ++ [(bid, freshBrackets mode)]) nid
              "right" (some bid)) bid "argument" (some fid)) bid "right"
            (some rid)) fid =
          some (setAttachment bid "argument" (clearAttachment frac)) := by
        rw [hL3 fid, if_neg (Ne.symm hrf), if_neg hfb]
        exact hfid2
      have hch3 : dpChildOf (dockingPointSetChild (dockingPointSetChild
            (dockingPointSetChild (a ++ [(bid, freshBrackets mode)]) nid
              "right" (some bid)) bid "argument" (some fid)) bid "right"
            (some rid)) fid "right" = some rid := by
        rw [dpChildOf_of_lookup _ fid _ "right" hfid3]
        show (match frac.dps.find? (fun dp => dp.name == "right") with
          | none => none
          | some dp => dp.child) = some rid
        rw [dpChildOf_of_lookup a fid frac "right" hfr] at hrco
        exact hrco
      have hL4 : ∀ x, lookupW (fractionShakeRewrite a fid bid mode) x =
          if x = fid then
            (lookupW (dockingPointSetChild (dockingPointSetChild
              (dockingPointSetChild (a ++ [(bid, freshBrackets mode)]) nid
                "right" (some bid)) bid "argument" (some fid)) bid "right"
              (some rid)) x).map
              (fun w => { w with dps := setDPChild w.dps "right" none })
          else if x = rid then
            (lookupW (dockingPointSetChild (dockingPointSetChild
              (dockingPointSetChild (a ++ [(bid, freshBrackets mode)]) nid
                "right" (some bid)) bid "argument" (some fid)) bid "right"
              (some rid)) x).map clearAttachment
          else lookupW (dockingPointSetChild (dockingPointSetChild
            (dockingPointSetChild (a ++ [(bid, freshBrackets mode)]) nid
              "right" (some bid)) bid "argument" (some fid)) bid "right"
            (some rid)) x := by
        intro x
        rw [hunf]
        exact lookupW_dock_full_none _ fid rid "right" hch3 hrf x
      refine ⟨?_, ?_, ?_⟩
      · rw [hL4 fid, if_pos rfl, hL3 fid, if_neg (Ne.symm hrf), if_neg hfb,
          hfid2]
        rfl
      · rw [hL4 bid, if_neg (Ne.symm hfb), if_neg (Ne.symm hrb), hL3 bid,
          if_neg (Ne.symm hrb), if_pos rfl, hbid2]
        rfl
      · rw [hL4 nid, if_neg (Ne.symm hfn), if_neg (Ne.symm hrn), hL3 nid,
          if_neg (Ne.symm hrn), if_neg hnb, hL2 nid, if_neg (Ne.symm hfn),
          if_neg hnb, if_pos rfl]
  obtain ⟨hFf, hFb, hFn⟩ := main
  refine ⟨?_, ?_, ?_, ?_, ?_, ?_, ?_, ?_⟩
  · rw [dpChildOf_of_lookup _ nid _ "right" hFn]
    show (match (setDPChild np.dps "right" (some bid)).find?
        (fun dp => dp.name == "right") with
      | none => none
      | some dp => dp.child) = some bid
    rw [find?_setDPChild_same]
    rw [dpChildOf_of_lookup a nid np "right" hnp] at hch
    cases hf : np.dps.find? (fun dp => dp.name == "right") with
    | none =>
      rw [hf] at hch
      exact Option.noConfusion hch
    | some dp0 => rfl
  · rw [hFb]
    rfl
  · rw [dpChildOf_of_lookup _ bid _ "argument" hFb]
    show (match (setDPChild (setDPChild (freshBrackets mode).dps "argument"
        (some fid)) "right" (dpChildOf a fid "right")).find?
        (fun dp => dp.name == "argument") with
      | none => none
      | some dp => dp.child) = some fid
    rw [find?_setDPChild_ne _ _ _ _
      (by decide : ("argument" : String) ≠ "right"), find?_setDPChild_same,
      find?_freshBrackets_argument]
    rfl
  · rw [hFf]
    rfl
  · rw [hFf]
    rfl
  · rw [dpChildOf_of_lookup _ bid _ "right" hFb]
    show (match (setDPChild (setDPChild (freshBrackets mode).dps "argument"
        (some fid)) "right" (dpChildOf a fid "right")).find?
        (fun dp => dp.name == "right") with
      | none => none
      | some dp => dp.child) = dpChildOf a fid "right"
    rw [find?_setDPChild_same, find?_setDPChild_ne _ _ _ _
      (by decide : ("right" : String) ≠ "argument"), find?_freshBrackets_right]
    rfl
  · rw [dpChildOf_of_lookup _ fid _ "right" hFf]
    show (match (setDPChild frac.dps "right" none).find?
        (fun dp => dp.name == "right") with
      | none => none
      | some dp => dp.child) = none
    rw [find?_setDPChild_same]
    cases hf : frac.dps.find? (fun dp => dp.name == "right") with
    | none => rfl
    | some d => rfl
  · intro bid2
    apply fractionShakeRewrite_no_trigger _ fid bid2 mode _ hFf
    intro nid' np' hp' hl' hcon
    have hb' : nid' = bid := by
      have hpp : (some bid : Option Nat) = some nid' := hp'
      injection hpp with hpp
      exact hpp.symm
    rw [hb', hFb] at hl'
    injection hl' with hl'
    rw [← hl'] at hcon
    have hcontra : ("Brackets" : String) = "Num" := hcon.1
    exact absurd hcontra (by decide)

end Inequality

namespace Inequality

/-- Witness for C4: the concrete arena `2 · (fraction · x)` — the rewrite
inserts brackets with id 4 and the trigger no longer fires. -/
theorem fraction_layout_rewrite_witness :
    (lookupW c4Arena 2 = some c4Frac ∧ c4Frac.wtype = "Fraction" ∧
      c4Frac.parentWidget = some 1 ∧ lookupW c4Arena 1 = some c4Num ∧
      c4Num.wtype = "Num" ∧ dpChildOf c4Arena 1 "right" = some 2 ∧
      lookupW c4Arena 4 = none ∧ rcFreshOk c4Arena 2 4 1 = true) ∧
    (dpChildOf (fractionShakeRewrite c4Arena 2 4 "maths") 1 "right"
        = some 4 ∧
      (lookupW (fractionShakeRewrite c4Arena 2 4 "maths") 4).map
        ArenaWidget.wtype = some "Brackets" ∧
      dpChildOf (fractionShakeRewrite c4Arena 2 4 "maths") 4 "argument"
        = some 2 ∧
      (lookupW (fractionShakeRewrite c4Arena 2 4 "maths") 2).map
        ArenaWidget.parentWidget = some (some 4) ∧
      (lookupW (fractionShakeRewrite c4Arena 2 4 "maths") 2).map
        ArenaWidget.dockedTo = some "argument" ∧
      dpChildOf (fractionShakeRewrite c4Arena 2 4 "maths") 4 "right" =
        dpChildOf c4Arena 2 "right" ∧
      dpChildOf (fractionShakeRewrite c4Arena 2 4 "maths") 2 "right"
        = none ∧
      (∀ bid2, fractionShakeRewrite (fractionShakeRewrite c4Arena 2 4 "maths")
        2 bid2 "maths" = fractionShakeRewrite c4Arena 2 4 "maths")) :=
  ⟨⟨by decide, by decide, by decide, by decide, by decide, by decide,
      by decide, by decide⟩,
    fraction_layout_rewrite c4Arena 2 4 1 c4Frac c4Num "maths" (by decide)
      (by decide) (by decide) (by decide) (by decide) (by decide) (by decide)
      (by decide)⟩

end Inequality

namespace Inequality

theorem sonLoop_stuck (t : String) (ht : t ≠ "Derivative") :
    ∀ fuel, sonLoop (some t) (some t) fuel = none := by
  intro fuel
  induction fuel with
  | zero => rfl
  | succ n ih =>
    show (match sonStep (some t) (some t) with
      | .inl b => some b
      | .inr p2 => sonLoop (some t) p2 n) = none
    have hst : sonStep (some t) (some t) = .inr (some t) := by
      show (if t = "Derivative" then (Sum.inl true : Sum Bool (Option String))
        else Sum.inr (some t)) = Sum.inr (some t)
      rw [if_neg ht]
    rw [hst]
    exact ih

/-- C10 counterexample: the claim's "evaluating the isDetachable getter does
not terminate" and "isDetachable terminates only when the parent is null or
is directly a Derivative" overlook the short-circuit `||`: on the
`/equality` page, or for a privileged user, `isDetachable` returns `true`
without ever entering the ancestry loop, even when the parent is a
non-`Derivative` widget. -/
theorem isDetachable_shortcircuit_counterexample :
    isDetachableRun true false (some "BinaryOperation") 1 = some true ∧
    isDetachableRun false true (some "BinaryOperation") 1 = some true := by
  decide

/-- C10 (amended): the `sonOfADerivative` ancestry loop assigns
`p = this.parentWidget` on every iteration instead of advancing, so for a
`Differential` whose parent is non-null and not a `Derivative` the loop
never exits (no fuel suffices), and `isDetachable` — once the pathname test
and the privilege check are both false, so that the `||` chain reaches
`!this.sonOfADerivative` — does not terminate either; with those two tests
false, `isDetachable` terminates exactly when the parent is null (giving
`true`) or is directly a `Derivative` (giving `false`). -/
theorem differential_isDetachable_nontermination :
    (∀ (t : String) (fuel : Nat), t ≠ "Derivative" →
      sonOfADerivativeRun (some t) fuel = none) ∧
    (∀ (t : String) (fuel : Nat), t ≠ "Derivative" →
      isDetachableRun false false (some t) fuel = none) ∧
    (∀ fuel, 0 < fuel → isDetachableRun false false none fuel = some true) ∧
    (∀ fuel, 0 < fuel →
      isDetachableRun false false (some "Derivative") fuel = some false) := by
  refine ⟨?_, ?_, ?_, ?_⟩
  · intro t fuel ht
    exact sonLoop_stuck t ht fuel
  · intro t fuel ht
    unfold isDetachableRun sonOfADerivativeRun
    rw [sonLoop_stuck t ht fuel]
    rfl
  · intro fuel hf
    cases fuel with
    | zero => exact absurd hf (lt_irrefl 0)
    | succ n => rfl
  · intro fuel hf
    cases fuel with
    | zero => exact absurd hf (lt_irrefl 0)
    | succ n => rfl

end Inequality

namespace Inequality

theorem scaleOf_setPos (w : EW) (v : Vec) :
    (w.setPos v).scaleOf = w.scaleOf := by
  cases w <;> rfl

theorem posOf_setPos (w : EW) (v : Vec) : (w.setPos v).posOf = v := by
  cases w <;> rfl

theorem setPos_setPos (w : EW) (v u : Vec) :
    (w.setPos v).setPos u = w.setPos u := by
  cases w <;> rfl

theorem geomOf_setPos (env : IEnv) (w : EW) (v : Vec) :
    geomOf env (w.setPos v) = geomOf env w := by
  cases w <;> rfl

theorem dockingPointOf_setPos (env : IEnv) (w : EW) (v : Vec) :
    dockingPointOf env (w.setPos v) = dockingPointOf env w := by
  cases w <;> rfl

theorem leftBoundOf_setPos (env : IEnv) (w : EW) (v : Vec) :
    leftBoundOf env (w.setPos v) = leftBoundOf env w := by
  unfold leftBoundOf
  rw [geomOf_setPos, dockingPointOf_setPos]

theorem topBoundOf_setPos (env : IEnv) (w : EW) (v : Vec) :
    topBoundOf env (w.setPos v) = topBoundOf env w := by
  unfold topBoundOf
  rw [geomOf_setPos, dockingPointOf_setPos]

theorem shakeW_setPos (env : IEnv) (sc : ℚ) (w : EW) (v : Vec) :
    shakeW env sc (w.setPos v) = (shakeW env sc w).map (fun u => u.setPos v) := by
  cases w with
  | symE l m s p dS dSb dR sup sub right =>
    show shakeW env sc (.symE l m s v dS dSb dR sup sub right) = _
    rw [shakeW, shakeW]
    cases shakeOpt env (sc * (2/3)) sup <;>
      cases shakeOpt env (sc * (2/3)) sub <;>
      cases shakeOpt env (sc * 1) right <;> rfl
  | numE sg s p dS dR sup right =>
    show shakeW env sc (.numE sg s v dS dR sup right) = _
    rw [shakeW, shakeW]
    cases isFracOpt right
    · rw [if_neg (by simp), if_neg (by simp)]
      cases shakeOpt env (sc * (2/3)) sup <;>
        cases shakeOpt env (sc * 1) right <;> rfl
    · rw [if_pos rfl, if_pos rfl]
      rfl
  | fracE s p dR dN dD right num den =>
    show shakeW env sc (.fracE s v dR dN dD right num den) = _
    rw [shakeW, shakeW]
    cases shakeOpt env (sc * 1) right <;>
      cases shakeOpt env (sc * 1) num <;>
      cases shakeOpt env (sc * 1) den <;> rfl

end Inequality

namespace Inequality

theorem shakeOpt_some_self (env : IEnv) (sc : ℚ) (c : EW)
    (h : shakeOpt env sc (some c) = some (some c)) :
    shakeW env sc c = some c := by
  rw [shakeOpt] at h
  cases hw : shakeW env sc c with
  | none => rw [hw] at h; exact Option.noConfusion h
  | some u =>
    rw [hw] at h
    simp only [Option.map_some', Option.some.injEq] at h
    rw [h]

theorem shakeW_to_shakeOpt (env : IEnv) (sc : ℚ) (c : EW)
    (h : shakeW env sc c = some c) :
    shakeOpt env sc (some c) = some (some c) := by
  rw [shakeOpt, h]
  rfl

theorem shakeOpt_stable_of_setPos (env : IEnv) (sc : ℚ) (c : EW) (v : Vec)
    (h : shakeW env sc c = some c) :
    shakeOpt env sc (some (c.setPos v)) = some (some (c.setPos v)) := by
  rw [shakeOpt, shakeW_setPos, h]
  rfl

theorem supSlot_stable (env : IEnv) (sc₀ sc : ℚ) (tb : RectQ) (d : Vec) :
    ∀ (c1 : Option EW), shakeOpt env sc₀ c1 = some c1 →
      shakeOpt env sc₀ (shakeSupSlot env sc tb d c1).1 =
        some (shakeSupSlot env sc tb d c1).1
  | none, _ => rfl
  | some c, h => by
    have hc : shakeW env sc₀ c = some c := shakeOpt_some_self env sc₀ c h
    simp only [shakeSupSlot]
    exact shakeOpt_stable_of_setPos env sc₀ c _ hc

theorem subSlot_stable (env : IEnv) (sc₀ sc : ℚ) (tb : RectQ) (d : Vec) :
    ∀ (c1 : Option EW), shakeOpt env sc₀ c1 = some c1 →
      shakeOpt env sc₀ (shakeSubSlot env sc tb d c1).1 =
        some (shakeSubSlot env sc tb d c1).1
  | none, _ => rfl
  | some c, h => by
    have hc : shakeW env sc₀ c = some c := shakeOpt_some_self env sc₀ c h
    simp only [shakeSubSlot]
    exact shakeOpt_stable_of_setPos env sc₀ c _ hc

theorem rightSlot_stable (env : IEnv) (sc₀ sc : ℚ) (tb : RectQ) (d : Vec)
    (shift : ℚ) :
    ∀ (c1 : Option EW), shakeOpt env sc₀ c1 = some c1 →
      shakeOpt env sc₀ (shakeRightSlot env sc tb d shift c1).1 =
        some (shakeRightSlot env sc tb d shift c1).1
  | none, _ => rfl
  | some c, h => by
    have hc : shakeW env sc₀ c = some c := shakeOpt_some_self env sc₀ c h
    simp only [shakeRightSlot]
    exact shakeOpt_stable_of_setPos env sc₀ c _ hc

theorem numSlot_stable (env : IEnv) (sc₀ sc : ℚ) (d : Vec) :
    ∀ (c1 : Option EW), shakeOpt env sc₀ c1 = some c1 →
      shakeOpt env sc₀ (shakeNumSlot env sc d c1).1 =
        some (shakeNumSlot env sc d c1).1
  | none, _ => rfl
  | some c, h => by
    have hc : shakeW env sc₀ c = some c := shakeOpt_some_self env sc₀ c h
    simp only [shakeNumSlot]
    exact shakeOpt_stable_of_setPos env sc₀ c _ hc

theorem denSlot_stable (env : IEnv) (sc₀ sc : ℚ) (d : Vec) :
    ∀ (c1 : Option EW), shakeOpt env sc₀ c1 = some c1 →
      shakeOpt env sc₀ (shakeDenSlot env sc d c1).1 =
        some (shakeDenSlot env sc d c1).1
  | none, _ => rfl
  | some c, h => by
    have hc : shakeW env sc₀ c = some c := shakeOpt_some_self env sc₀ c h
    simp only [shakeDenSlot]
    exact shakeOpt_stable_of_setPos env sc₀ c _ hc

theorem fracRightSlot_stable (env : IEnv) (sc₀ sc : ℚ) (wP : EW)
    (tb : RectQ) (d : Vec) :
    ∀ (c1 : Option EW), shakeOpt env sc₀ c1 = some c1 →
      shakeOpt env sc₀ (shakeRightSlotFrac env sc wP tb d c1).1 =
        some (shakeRightSlotFrac env sc wP tb d c1).1
  | none, _ => rfl
  | some c, h => by
    have hc : shakeW env sc₀ c = some c := shakeOpt_some_self env sc₀ c h
    simp only [shakeRightSlotFrac]
    exact shakeOpt_stable_of_setPos env sc₀ c _ hc

end Inequality

namespace Inequality

theorem supSlot_idem (env : IEnv) (sc : ℚ) (tb : RectQ) (d : Vec) :
    ∀ (c1 : Option EW),
      shakeSupSlot env sc tb (shakeSupSlot env sc tb d c1).2.1
        (shakeSupSlot env sc tb d c1).1 = shakeSupSlot env sc tb d c1
  | none => rfl
  | some c => by
    simp only [shakeSupSlot, geomOf_setPos, leftBoundOf_setPos,
      scaleOf_setPos, setPos_setPos]

theorem subSlot_idem (env : IEnv) (sc : ℚ) (tb : RectQ) (d : Vec) :
    ∀ (c1 : Option EW),
      shakeSubSlot env sc tb (shakeSubSlot env sc tb d c1).2.1
        (shakeSubSlot env sc tb d c1).1 = shakeSubSlot env sc tb d c1
  | none => rfl
  | some c => by
    simp only [shakeSubSlot, geomOf_setPos, leftBoundOf_setPos,
      topBoundOf_setPos, scaleOf_setPos, setPos_setPos]

theorem rightSlot_idem (env : IEnv) (sc : ℚ) (tb : RectQ) (d : Vec)
    (shift : ℚ) :
    ∀ (c1 : Option EW),
      shakeRightSlot env sc tb (shakeRightSlot env sc tb d shift c1).2 shift
        (shakeRightSlot env sc tb d shift c1).1 =
        shakeRightSlot env sc tb d shift c1
  | none => rfl
  | some c => by
    simp only [shakeRightSlot, geomOf_setPos, leftBoundOf_setPos,
      dockingPointOf_setPos, scaleOf_setPos, setPos_setPos]

theorem numSlot_idem (env : IEnv) (sc : ℚ) (d : Vec) :
    ∀ (c1 : Option EW),
      shakeNumSlot env sc (shakeNumSlot env sc d c1).2
        (shakeNumSlot env sc d c1).1 = shakeNumSlot env sc d c1
  | none => rfl
  | some c => by
    simp only [shakeNumSlot, geomOf_setPos, setPos_setPos]

theorem denSlot_idem (env : IEnv) (sc : ℚ) (d : Vec) :
    ∀ (c1 : Option EW),
      shakeDenSlot env sc (shakeDenSlot env sc d c1).2
        (shakeDenSlot env sc d c1).1 = shakeDenSlot env sc d c1
  | none => rfl
  | some c => by
    simp only [shakeDenSlot, geomOf_setPos, setPos_setPos]

theorem fracRightSlot_idem (env : IEnv) (sc : ℚ) (wP wP2 : EW)
    (tb : RectQ) (d : Vec)
    (hW : (geomOf env wP2).sBB = (geomOf env wP).sBB) :
    ∀ (c1 : Option EW),
      shakeRightSlotFrac env sc wP2 tb
        (shakeRightSlotFrac env sc wP tb d c1).2
        (shakeRightSlotFrac env sc wP tb d c1).1 =
        shakeRightSlotFrac env sc wP tb d c1
  | none => by
    simp only [shakeRightSlotFrac, hW]
  | some c => by
    simp only [shakeRightSlotFrac, geomOf_setPos, leftBoundOf_setPos,
      dockingPointOf_setPos, setPos_setPos]

theorem fracBox_slots (env : IEnv) (sc : ℚ) (dN dD : Vec) :
    ∀ (c1 c2 : Option EW),
      fracBox env sc (shakeNumSlot env sc dN c1).1
        (shakeDenSlot env sc dD c2).1 = fracBox env sc c1 c2 := by
  intro c1 c2
  cases c1 <;> cases c2 <;>
    simp [fracBox, shakeNumSlot, shakeDenSlot, sdpbOrDefault, geomOf_setPos]

theorem isFracOpt_setPos (c : EW) (v : Vec) :
    isFracOpt (some (c.setPos v)) = isFracOpt (some c) := by
  cases c <;> rfl

theorem isFracOpt_shakeOpt (env : IEnv) (sc : ℚ) :
    ∀ (c c1 : Option EW), shakeOpt env sc c = some c1 →
      isFracOpt c1 = isFracOpt c
  | none, c1, h => by
    injection h with h
    rw [← h]
  | some w, c1, h => by
    rw [shakeOpt] at h
    cases hw : shakeW env sc w with
    | none => rw [hw] at h; exact Option.noConfusion h
    | some u =>
      rw [hw] at h
      simp only [Option.map_some', Option.some.injEq] at h
      rw [← h]
      cases w with
      | symE l m s p dS dSb dR sup sub right =>
        rw [shakeW] at hw
        split at hw
        · injection hw with hw; rw [← hw]; rfl
        · exact Option.noConfusion hw
      | numE sg s p dS dR sup right =>
        rw [shakeW] at hw
        split at hw
        · exact Option.noConfusion hw
        · split at hw
          · injection hw with hw; rw [← hw]; rfl
          · exact Option.noConfusion hw
      | fracE s p dR dN dD right num den =>
        rw [shakeW] at hw
        split at hw
        · injection hw with hw; rw [← hw]; rfl
        · exact Option.noConfusion hw

end Inequality

namespace Inequality

mutual

theorem shakeW_isSome (env : IEnv) (sc : ℚ) :
    ∀ (t : EW), (shakeW env sc t).isSome = noTriggerB t
  | .symE l m s p dS dSb dR sup sub right => by
    rw [shakeW, noTriggerB, ← shakeOpt_isSome env (sc * (2/3)) sup,
      ← shakeOpt_isSome env (sc * (2/3)) sub,
      ← shakeOpt_isSome env (sc * 1) right]
    cases shakeOpt env (sc * (2/3)) sup <;>
      cases shakeOpt env (sc * (2/3)) sub <;>
      cases shakeOpt env (sc * 1) right <;> rfl
  | .numE sg s p dS dR sup right => by
    rw [shakeW, noTriggerB, ← shakeOpt_isSome env (sc * (2/3)) sup,
      ← shakeOpt_isSome env (sc * 1) right]
    cases isFracOpt right with
    | true => rfl
    | false =>
      rw [if_neg (by simp)]
      cases shakeOpt env (sc * (2/3)) sup <;>
        cases shakeOpt env (sc * 1) right <;> rfl
  | .fracE s p dR dN dD right num den => by
    rw [shakeW, noTriggerB, ← shakeOpt_isSome env (sc * 1) right,
      ← shakeOpt_isSome env (sc * 1) num,
      ← shakeOpt_isSome env (sc * 1) den]
    cases shakeOpt env (sc * 1) right <;>
      cases shakeOpt env (sc * 1) num <;>
      cases shakeOpt env (sc * 1) den <;> rfl

theorem shakeOpt_isSome (env : IEnv) (sc : ℚ) :
    ∀ (c : Option EW), (shakeOpt env sc c).isSome = noTriggerOpt c
  | none => rfl
  | some c => by
    rw [shakeOpt, noTriggerOpt, ← shakeW_isSome env sc c]
    cases shakeW env sc c <;> rfl

end

theorem shakeW_scaleOf (env : IEnv) (sc : ℚ) (t t' : EW)
    (h : shakeW env sc t = some t') : t'.scaleOf = sc := by
  cases t with
  | symE l m s p dS dSb dR sup sub right =>
    rw [shakeW] at h
    split at h
    · injection h with h; rw [← h]; rfl
    · exact Option.noConfusion h
  | numE sg s p dS dR sup right =>
    rw [shakeW] at h
    split at h
    · exact Option.noConfusion h
    · split at h
      · injection h with h; rw [← h]; rfl
      · exact Option.noConfusion h
  | fracE s p dR dN dD right num den =>
    rw [shakeW] at h
    split at h
    · injection h with h; rw [← h]; rfl
    · exact Option.noConfusion h

end Inequality

namespace Inequality

theorem fracSBB_dpRight (env : IEnv) (s : ℚ) (p dR dR2 dN dD : Vec)
    (r n d : Option EW) :
    (geomOf env (.fracE s p dR2 dN dD r n d)).sBB =
      (geomOf env (.fracE s p dR dN dD r n d)).sBB := rfl

theorem isFracOpt_rightSlot (env : IEnv) (sc : ℚ) (tb : RectQ) (d : Vec)
    (shift : ℚ) :
    ∀ (c1 : Option EW),
      isFracOpt (shakeRightSlot env sc tb d shift c1).1 = isFracOpt c1
  | none => rfl
  | some c => by
    simp only [shakeRightSlot]
    exact isFracOpt_setPos c _

mutual

theorem shakeW_idem (env : IEnv) (sc : ℚ) :
    ∀ (t t' : EW), shakeW env sc t = some t' → shakeW env sc t' = some t'
  | .symE l m s pos dS dSb dR sup sub right, t', h => by
    rw [shakeW] at h
    cases h1 : shakeOpt env (sc * (2/3)) sup with
    | none => rw [h1] at h; exact Option.noConfusion h
    | some sup1 =>
      rw [h1] at h
      cases h2 : shakeOpt env (sc * (2/3)) sub with
      | none => rw [h2] at h; exact Option.noConfusion h
      | some sub1 =>
        rw [h2] at h
        cases h3 : shakeOpt env (sc * 1) right with
        | none => rw [h3] at h; exact Option.noConfusion h
        | some right1 =>
          rw [h3] at h
          injection h with h
          subst h
          have hsupS := supSlot_stable env (sc * (2/3)) sc
            (symBox env l m sc) dS sup1
            (shakeOpt_idem env (sc * (2/3)) sup sup1 h1)
          have hsubS := subSlot_stable env (sc * (2/3)) sc
            (symBox env l m sc) dSb sub1
            (shakeOpt_idem env (sc * (2/3)) sub sub1 h2)
          have hrightS := rightSlot_stable env (sc * 1) sc
            (symBox env l m sc) dR
            (max (shakeSupSlot env sc (symBox env l m sc) dS sup1).2.2
              (shakeSubSlot env sc (symBox env l m sc) dSb sub1).2.2) right1
            (shakeOpt_idem env (sc * 1) right right1 h3)
          rw [shakeW]
          simp only [hsupS, hsubS, hrightS, supSlot_idem, subSlot_idem,
            rightSlot_idem]
  | .numE sg s pos dS dR sup right, t', h => by
    rw [shakeW] at h
    cases hF : isFracOpt right with
    | true =>
      rw [hF, if_pos rfl] at h
      exact Option.noConfusion h
    | false =>
      rw [hF, if_neg (by simp)] at h
      cases h1 : shakeOpt env (sc * (2/3)) sup with
      | none => rw [h1] at h; exact Option.noConfusion h
      | some sup1 =>
        rw [h1] at h
        cases h2 : shakeOpt env (sc * 1) right with
        | none => rw [h2] at h; exact Option.noConfusion h
        | some right1 =>
          rw [h2] at h
          injection h with h
          subst h
          have hsupS := supSlot_stable env (sc * (2/3)) sc
            (numBox env sg sc) dS sup1
            (shakeOpt_idem env (sc * (2/3)) sup sup1 h1)
          have hrightS := rightSlot_stable env (sc * 1) sc
            (numBox env sg sc) dR
            (shakeSupSlot env sc (numBox env sg sc) dS sup1).2.2 right1
            (shakeOpt_idem env (sc * 1) right right1 h2)
          have hF2 : isFracOpt (shakeRightSlot env sc (numBox env sg sc) dR
              (shakeSupSlot env sc (numBox env sg sc) dS sup1).2.2
              right1).1 = false := by
            rw [isFracOpt_rightSlot, isFracOpt_shakeOpt env (sc * 1)
              right right1 h2, hF]
          rw [shakeW, hF2, if_neg (by simp)]
          simp only [hsupS, hrightS, supSlot_idem, rightSlot_idem]
  | .fracE s pos dR dN dD right num den, t', h => by
    rw [shakeW] at h
    cases h1 : shakeOpt env (sc * 1) right with
    | none => rw [h1] at h; exact Option.noConfusion h
    | some right1 =>
      rw [h1] at h
      cases h2 : shakeOpt env (sc * 1) num with
      | none => rw [h2] at h; exact Option.noConfusion h
      | some num1 =>
        rw [h2] at h
        cases h3 : shakeOpt env (sc * 1) den with
        | none => rw [h3] at h; exact Option.noConfusion h
        | some den1 =>
          rw [h3] at h
          injection h with h
          subst h
          have hnumS := numSlot_stable env (sc * 1) sc dN num1
            (shakeOpt_idem env (sc * 1) num num1 h2)
          have hdenS := denSlot_stable env (sc * 1) sc dD den1
            (shakeOpt_idem env (sc * 1) den den1 h3)
          have hrightS := fracRightSlot_stable env (sc * 1) sc
            (EW.fracE sc pos dR (shakeNumSlot env sc dN num1).2
              (shakeDenSlot env sc dD den1).2 none
              (shakeNumSlot env sc dN num1).1
              (shakeDenSlot env sc dD den1).1)
            (fracBox env sc num1 den1) dR right1
            (shakeOpt_idem env (sc * 1) right right1 h1)
          rw [shakeW]
          simp only [hnumS, hdenS, hrightS, numSlot_idem, denSlot_idem,
            fracBox_slots]
          rw [fracRightSlot_idem env sc _ _ (fracBox env sc num1 den1) dR
            (fracSBB_dpRight env sc pos dR _ _ _ _ _ _) right1]

theorem shakeOpt_idem (env : IEnv) (sc : ℚ) :
    ∀ (c c' : Option EW), shakeOpt env sc c = some c' →
      shakeOpt env sc c' = some c'
  | none, c', h => by
    injection h with h
    rw [← h]
    rfl
  | some w, c', h => by
    rw [shakeOpt] at h
    cases hw : shakeW env sc w with
    | none => rw [hw] at h; exact Option.noConfusion h
    | some u =>
      rw [hw] at h
      simp only [Option.map_some', Option.some.injEq] at h
      rw [← h]
      exact shakeW_to_shakeOpt env sc u (shakeW_idem env sc w u hw)

end

end Inequality

namespace Inequality

/-- C5: on a stable tree — no `Fraction` docked at the `right` point of a
`Num`, which is exactly when the layout pass runs as pure geometry
(first conjunct) — running the root's layout pass (`shakeIt`, i.e.
`_shakeIt` at the root with its own scale) twice in succession produces
identical results: the second pass returns the first pass's output
unchanged, so every widget's position and scale, every docking point's
position, and every bounding box agree after the second pass with their
values after the first; the root's scale is also preserved, so the second
pass runs at the same scale. -/
theorem layout_idempotence :
    (∀ (env : IEnv) (sc : ℚ) (t : EW),
      (shakeW env sc t).isSome = noTriggerB t) ∧
    (∀ (env : IEnv) (t t' : EW),
      shakeW env (EW.scaleOf t) t = some t' →
        EW.scaleOf t' = EW.scaleOf t ∧
        shakeW env (EW.scaleOf t') t' = some t') := by
  constructor
  · intro env sc t
    exact shakeW_isSome env sc t
  · intro env t t' h
    have hs : EW.scaleOf t' = EW.scaleOf t := shakeW_scaleOf env _ t t' h
    refine ⟨hs, ?_⟩
    rw [hs]
    exact shakeW_idem env _ t t' h

end Inequality
